import Mathlib

/-!
Row-ordering comparators of parquet-go (`compare.go`)

A shallow embedding of `vendor/github.com/segmentio/parquet-go/compare.go`:
the primitive comparators for booleans, integers and 128-bit blocks, the
comparator combinators, the positional and scanning row comparators, and the
synthesis of a multi-column row comparator from a schema and a list of sorting
columns. The comparators for floating-point numbers and for the 96-bit
integer are not embedded.

Conventions of the embedding.
* Go `int` results are `Int`; the only arithmetic on them is unary minus, which
  is wrapped to 64 bits (`wrapInt`). Machine integers that are only compared
  are `Int` or `Nat`, and a block `*[16]byte` is the list of its bytes.
* A Go function of type `func(Row, Row) int` is a `RowFunc`: it returns an
  `Outcome`, which is either the integer returned or a run-time fault (slice
  index out of range, call of a nil function value).
* Go loops are recursion on an explicit iteration budget; a loop that would
  need more iterations than its budget yields `Outcome.outOfFuel`, and the
  theorems show that this never happens.
-/

namespace Parquet

/-! ## Data model -/

/-- Modelled from the spec: the payload of a `Value`, which is declared outside
`compare.go`. The spec describes it as a tagged union, either null or a typed
payload (boolean, int32, int64, int96, float32, float64, fixed-size byte block,
variable-length byte string). Floating-point payloads are kept as raw bits. -/
inductive Payload where
  | null
  | boolean (v : Bool)
  | int32 (v : Int)
  | int64 (v : Int)
  | int96 (v : Nat)
  | float (bits : Nat)
  | double (bits : Nat)
  | byteArray (v : List Nat)
  | fixedLenByteArray (v : List Nat)
  deriving DecidableEq

/-- Modelled from the spec: the `Value` type, which is declared outside
`compare.go`. A value carries its payload and the column it belongs to. The
field `columnIndex` holds the bitwise complement of the column index, which is
what `compareRowsFuncOfScan` compares it with (`columnIndex = ^columnIndex`). -/
structure Value where
  payload : Payload
  columnIndex : Int
  deriving DecidableEq

/-- Modelled from the spec: `Value.IsNull`, the only predicate on values that
`compare.go` uses. -/
def Value.IsNull (v : Value) : Bool :=
  match v.payload with
  | .null => true
  | _ => false

/-- A row is the Go slice `[]Value`. -/
abbrev Row := List Value

/-- The Go operator `^x` on a signed integer: bitwise complement, `-x - 1`.
On `int16` it never overflows. -/
def complement (x : Int) : Int := -x - 1

/-- Reduction of an integer to the range of the 64-bit Go `int`. -/
def wrapInt (x : Int) : Int := (x + 2 ^ 63) % 2 ^ 64 - 2 ^ 63

/-- Go unary minus on `int`. -/
def negInt (x : Int) : Int := wrapInt (-x)

/-- What a call of a `func(Row, Row) int` does. -/
inductive Outcome where
  | value (cmp : Int)
  | fault
  | outOfFuel
  deriving DecidableEq

/-- The Go type `func(Row, Row) int`. -/
abbrev RowFunc := Row → Row → Outcome

/-- The Go type `func(Value, Value) int`. -/
abbrev ValueFunc := Value → Value → Int

/-- Modelled from the spec: the part of the `Type` interface that `compare.go`
uses, its `Compare` method. The interface is declared outside `compare.go`. -/
structure Typ where
  Compare : ValueFunc

/-- The Go index expression `row[i]` for a signed index: a fault when the index
is negative or not below the length. -/
def Row.index (row : Row) (i : Int) : Option Value :=
  if 0 ≤ i then row[i.toNat]? else none

/-! ## Comparator combinators -/

/-- `CompareDescending` of `compare.go`. -/
def CompareDescending (cmp : ValueFunc) : ValueFunc :=
  fun a b => negInt (cmp a b)

/-- `CompareNullsFirst` of `compare.go`. -/
def CompareNullsFirst (cmp : ValueFunc) : ValueFunc :=
  fun a b =>
    if a.IsNull then
      if b.IsNull then 0 else -1
    else if b.IsNull then 1
    else cmp a b

/-- `CompareNullsLast` of `compare.go`. -/
def CompareNullsLast (cmp : ValueFunc) : ValueFunc :=
  fun a b =>
    if a.IsNull then
      if b.IsNull then 0 else 1
    else if b.IsNull then -1
    else cmp a b

/-! ## Row comparators -/

/-- `compareRowsUnordered` of `compare.go`. -/
def compareRowsUnordered : RowFunc := fun _ _ => .value 0

/-- Call of a function value that may be nil: calling nil is a fault. -/
def callFunc (f : Option RowFunc) : RowFunc :=
  match f with
  | some g => g
  | none => fun _ _ => .fault

/-- The loop of `compareRowsFuncOfColumns`: the first result that is not zero. -/
def compareRowsFuncOfColumns.loop (row1 row2 : Row) : List (Option RowFunc) → Outcome
  | [] => .value 0
  | compare :: rest =>
    match callFunc compare row1 row2 with
    | .value cmp => if cmp ≠ 0 then .value cmp else compareRowsFuncOfColumns.loop row1 row2 rest
    | o => o

/-- `compareRowsFuncOfColumns` of `compare.go`. -/
def compareRowsFuncOfColumns (compareFuncs : List (Option RowFunc)) : RowFunc :=
  fun row1 row2 => compareRowsFuncOfColumns.loop row1 row2 compareFuncs

/-- `compareRowsFuncOfIndexAscending` of `compare.go`. -/
def compareRowsFuncOfIndexAscending (columnIndex : Int) (typ : Typ) : RowFunc :=
  fun row1 row2 =>
    match row1.index columnIndex, row2.index columnIndex with
    | some a, some b => .value (typ.Compare a b)
    | _, _ => .fault

/-- `compareRowsFuncOfIndexDescending` of `compare.go`. -/
def compareRowsFuncOfIndexDescending (columnIndex : Int) (typ : Typ) : RowFunc :=
  fun row1 row2 =>
    match row1.index columnIndex, row2.index columnIndex with
    | some a, some b => .value (negInt (typ.Compare a b))
    | _, _ => .fault

/-- The inner loops of `compareRowsFuncOfScan`,
`for i < len(row) && row[i].columnIndex != columnIndex { i++ }`,
started at `i` with a budget of `fuel` iterations; the result is the final `i`.
The budget `len(row) - i` is never exceeded. -/
def skipToColumn (row : Row) (columnIndex : Int) : Nat → Nat → Nat
  | 0, i => i
  | fuel + 1, i =>
    if h : i < row.length then
      if row[i].columnIndex ≠ columnIndex then skipToColumn row columnIndex fuel (i + 1)
      else i
    else i

/-- The outer loop of `compareRowsFuncOfScan`, started at `i1`, `i2` with a
budget of `fuel` iterations; `columnIndex` is already complemented. -/
def compareRowsFuncOfScan.loop (compare : ValueFunc) (columnIndex : Int) (row1 row2 : Row) :
    Nat → Nat → Nat → Outcome
  | 0, _, _ => .outOfFuel
  | fuel + 1, i1, i2 =>
    let i1 := skipToColumn row1 columnIndex (row1.length - i1) i1
    let i2 := skipToColumn row2 columnIndex (row2.length - i2) i2
    let end1 := decide (i1 = row1.length)
    let end2 := decide (i2 = row2.length)
    if end1 && end2 then .value 0
    else if end1 then .value (-1)
    else if end2 then .value 1
    else
      match row1[i1]?, row2[i2]? with
      | some a, some b =>
        let cmp := compare a b
        if cmp ≠ 0 then .value cmp
        else compareRowsFuncOfScan.loop compare columnIndex row1 row2 fuel (i1 + 1) (i2 + 1)
      | _, _ => .fault

/-- `compareRowsFuncOfScan` of `compare.go`. The outer loop gets a budget of
`min(len(row1), len(row2)) + 1` iterations. -/
def compareRowsFuncOfScan (columnIndex : Int) (compare : ValueFunc) : RowFunc :=
  let columnIndex := complement columnIndex
  fun row1 row2 =>
    compareRowsFuncOfScan.loop compare columnIndex row1 row2
      (min row1.length row2.length + 1) 0 0

/-! ## Synthesis of the row comparator -/

/-- Modelled from the spec: the `SortingColumn` interface, declared outside
`compare.go`; only its observable contract (path, direction, null placement)
is consumed. -/
structure SortingColumn where
  Path : List String
  Descending : Bool
  NullsFirst : Bool

/-- Modelled from the spec: the `leafColumn` descriptor, declared outside
`compare.go`: dotted path, column index, maximum repetition and definition
levels, and the declared type (`leaf.node.Type()`). -/
structure leafColumn where
  typ : Typ
  path : List String
  maxRepetitionLevel : Nat
  maxDefinitionLevel : Nat
  columnIndex : Int

/-- Modelled from the spec: a schema, seen by `compare.go` only through
`forEachLeafColumnOf`, is the ordered sequence of its leaves. -/
abbrev Schema := List leafColumn

/-- Modelled from the spec: `forEachLeafColumnOf`, declared outside
`compare.go`, calls the function once on every leaf, in schema order. The
variables captured by the callback are threaded as the state `σ`. -/
def forEachLeafColumnOf {σ : Type} (schema : Schema) (f : σ → leafColumn → σ) (init : σ) : σ :=
  schema.foldl f init

/-- Modelled from the spec: `searchSortingColumn`, declared outside
`compare.go`, matches a leaf to a sort-specification entry by path. It is the
position of the first sorting column with that path, and the number of sorting
columns when there is none (the caller tests
`sortingIndex < len(sortingColumns)`). -/
def searchSortingColumn (sortingColumns : List SortingColumn) (path : List String) : Nat :=
  sortingColumns.findIdx (fun sorting => decide (path = sorting.Path))

/-- The variables of `compareRowsFuncOf` that the leaf callback reads and
writes. A nil function value is `none`. -/
structure Synthesis where
  compareFuncs : List (Option RowFunc)
  direct : Bool

/-- The row comparator that the callback of `compareRowsFuncOf` builds for a
matched leaf (`sortFunc`), given the value of `direct` at that moment. -/
def sortFuncOf (direct : Bool) (leaf : leafColumn) (sortingColumn : SortingColumn) : RowFunc :=
  let descending := sortingColumn.Descending
  let optional := decide (leaf.maxDefinitionLevel > 0)
  if direct && !optional then
    let typ := leaf.typ
    if descending then compareRowsFuncOfIndexDescending leaf.columnIndex typ
    else compareRowsFuncOfIndexAscending leaf.columnIndex typ
  else
    let compare := leaf.typ.Compare
    let compare := if descending then CompareDescending compare else compare
    let compare :=
      if optional then
        if sortingColumn.NullsFirst then CompareNullsFirst compare else CompareNullsLast compare
      else compare
    compareRowsFuncOfScan leaf.columnIndex compare

/-- The callback that `compareRowsFuncOf` passes to `forEachLeafColumnOf`. -/
def visitLeaf (sortingColumns : List SortingColumn) (st : Synthesis) (leaf : leafColumn) :
    Synthesis :=
  let direct := if leaf.maxRepetitionLevel > 0 then false else st.direct
  let sortingIndex := searchSortingColumn sortingColumns leaf.path
  if h : sortingIndex < sortingColumns.length then
    let sortingColumn := sortingColumns[sortingIndex]
    { compareFuncs := st.compareFuncs.set sortingIndex (some (sortFuncOf direct leaf sortingColumn))
      direct := direct }
  else
    { compareFuncs := st.compareFuncs, direct := direct }

/-- The first part of `compareRowsFuncOf`: the slice `compareFuncs` and the
flag `direct` after the traversal of the schema. -/
def traverseSchema (schema : Schema) (sortingColumns : List SortingColumn) : Synthesis :=
  forEachLeafColumnOf schema (visitLeaf sortingColumns)
    { compareFuncs := List.replicate sortingColumns.length none, direct := true }

/-- The compaction loop of `compareRowsFuncOf`,
`for _, f := range compareFuncs { if f != nil { compareFuncs[n] = f; n++ } }`,
with `k` iterations left, at position `i` of the range. The result is the
slice after the loop and the final `n`. -/
def compactLoop : Nat → Nat → Nat → List (Option RowFunc) → List (Option RowFunc) × Nat
  | 0, _, n, compareFuncs => (compareFuncs, n)
  | k + 1, i, n, compareFuncs =>
    match compareFuncs[i]? with
    | some (some f) => compactLoop k (i + 1) (n + 1) (compareFuncs.set n (some f))
    | _ => compactLoop k (i + 1) n compareFuncs

/-- `compareRowsFuncOf` of `compare.go`. -/
def compareRowsFuncOf (schema : Schema) (sortingColumns : List SortingColumn) : RowFunc :=
  let st := traverseSchema schema sortingColumns
  let compacted := compactLoop st.compareFuncs.length 0 0 st.compareFuncs
  let compareFuncs := compacted.1
  let n := compacted.2
  match n with
  | 0 => compareRowsUnordered
  | 1 =>
    match compareFuncs[0]? with
    | some f => callFunc f
    | none => fun _ _ => .fault
  | _ => compareRowsFuncOfColumns (compareFuncs.take n)

/-! ## Specification-level notions -/

/-- The column index a value is tagged with (`Value.Column`): the complement of
the stored field. -/
def Value.Column (v : Value) : Int := complement v.columnIndex

/-- The subsequence of the values of a row that are tagged with column `c`, in
row order. -/
def valuesOf (c : Int) (row : Row) : List Value :=
  row.filter (fun v => decide (v.columnIndex = complement c))

/-- Lexicographic comparison of two sequences of values under `cmp`, a shorter
sequence that agrees with the longer one sorting first. -/
def lexCompare (cmp : ValueFunc) : List Value → List Value → Int
  | [], [] => 0
  | [], _ :: _ => -1
  | _ :: _, [] => 1
  | x :: xs, y :: ys => if cmp x y ≠ 0 then cmp x y else lexCompare cmp xs ys

/-- The first outcome of a sequence that is not the result zero, and the
result zero when there is none. -/
def firstNonZero : List Outcome → Outcome
  | [] => .value 0
  | o :: os => if o = .value 0 then firstNonZero os else o

/-- The value comparator of the general path for a matched leaf: the base
comparator of the leaf type, reversed when the entry is descending, then
wrapped with the null placement of the entry when the column is optional. -/
def valueFuncOf (leaf : leafColumn) (sortingColumn : SortingColumn) : ValueFunc :=
  let base := leaf.typ.Compare
  let ordered := if sortingColumn.Descending then CompareDescending base else base
  if leaf.maxDefinitionLevel > 0 then
    if sortingColumn.NullsFirst then CompareNullsFirst ordered else CompareNullsLast ordered
  else ordered

/-- No leaf of the list is repeated. -/
def noneRepeated (leaves : List leafColumn) : Bool :=
  leaves.all (fun leaf => decide (leaf.maxRepetitionLevel = 0))

/-- Position in the schema of the first leaf with the given path (the number
of leaves when there is none). -/
def leafPosition (schema : Schema) (path : List String) : Nat :=
  schema.findIdx (fun leaf => decide (leaf.path = path))

/-- Some leaf of the schema has the path of the sorting column. -/
def isMatched (schema : Schema) (sortingColumn : SortingColumn) : Bool :=
  schema.any (fun leaf => decide (leaf.path = sortingColumn.Path))

/-- The per-column comparator of a sort-specification entry: the one built for
the leaf with the path of the entry, with `direct` as it stands when that leaf
is visited (no leaf up to and including it is repeated). -/
def keyFuncOf (schema : Schema) (sortingColumn : SortingColumn) : RowFunc :=
  match schema[leafPosition schema sortingColumn.Path]? with
  | some leaf =>
    sortFuncOf (noneRepeated (schema.take (leafPosition schema sortingColumn.Path + 1)))
      leaf sortingColumn
  | none => compareRowsUnordered

/-- The leaves carry the dense column indexes 0, 1, 2, ... in traversal
order, as schema flattening assigns them. -/
def denseColumnIndexes (schema : Schema) : Prop :=
  schema.map (fun leaf => leaf.columnIndex) = (List.range schema.length).map Int.ofNat

instance (schema : Schema) : Decidable (denseColumnIndexes schema) := by
  unfold denseColumnIndexes
  infer_instance

/-- Number of values of a row tagged with column `c`. -/
def countOf (c : Int) (row : Row) : Nat := (valuesOf c row).length

/-- Values are non-decreasing by column index and belong to leaves of the
schema. -/
def orderedRow (schema : Schema) (row : Row) : Prop :=
  (row.map Value.Column).Pairwise (fun a b => a ≤ b) ∧
    ∀ v ∈ row, ∃ leaf ∈ schema, leaf.columnIndex = v.Column

instance (schema : Schema) (row : Row) : Decidable (orderedRow schema row) := by
  unfold orderedRow
  infer_instance

/-- Well-formed rows in the words of the spec: values non-decreasing by column
index; a required non-repeated column contributes exactly one value; an
optional non-repeated column contributes one value, or none when it is absent;
a repeated column contributes a run of zero or more values. -/
def specWellFormedRow (schema : Schema) (row : Row) : Prop :=
  orderedRow schema row ∧
    ∀ leaf ∈ schema, leaf.maxRepetitionLevel = 0 →
      if leaf.maxDefinitionLevel = 0 then countOf leaf.columnIndex row = 1
      else countOf leaf.columnIndex row ≤ 1

instance (schema : Schema) (row : Row) : Decidable (specWellFormedRow schema row) := by
  unfold specWellFormedRow
  infer_instance

/-- Well-formed rows as `compare.go` assumes them: values non-decreasing by
column index; every non-repeated column, required or optional, contributes
exactly one value (a null value when an optional column is absent); a repeated
column contributes a run of zero or more values. -/
def wellFormedRow (schema : Schema) (row : Row) : Prop :=
  orderedRow schema row ∧
    ∀ leaf ∈ schema, leaf.maxRepetitionLevel = 0 → countOf leaf.columnIndex row = 1

instance (schema : Schema) (row : Row) : Decidable (wellFormedRow schema row) := by
  unfold wellFormedRow
  infer_instance

/-- Every position `i` of the row holds a value tagged with column `i`. -/
def positionalRow (row : Row) : Prop :=
  ∀ i (h : i < row.length), row[i].columnIndex = complement (Int.ofNat i)

instance (row : Row) : Decidable (positionalRow row) := by
  unfold positionalRow
  infer_instance

/-! ## Example data -/

/-- `compareInt64` of `compare.go`. -/
def compareInt64 (v1 v2 : Int) : Int :=
  if v1 < v2 then -1
  else if v1 > v2 then 1
  else 0

/-- The 64-bit integer held by a value (zero for another kind of payload). -/
def Value.int64 (v : Value) : Int :=
  match v.payload with
  | .int64 x => x
  | _ => 0

/-- Example type: 64-bit integers compared with `compareInt64`. -/
def int64Type : Typ := { Compare := fun a b => compareInt64 a.int64 b.int64 }

/-- Example value: the 64-bit integer `x` tagged with column `c`. -/
def int64Value (c : Int) (x : Int) : Value := { payload := .int64 x, columnIndex := complement c }

/-- Example value: a null tagged with column `c`. -/
def nullValue (c : Int) : Value := { payload := .null, columnIndex := complement c }

/-- Example leaf with the given path, levels and column index, of type `int64Type`. -/
def int64Leaf (path : List String) (maxRepetitionLevel maxDefinitionLevel : Nat)
    (columnIndex : Int) : leafColumn :=
  { typ := int64Type, path := path, maxRepetitionLevel := maxRepetitionLevel,
    maxDefinitionLevel := maxDefinitionLevel, columnIndex := columnIndex }

/-- Example schema: a required `id` (column 0) followed by a repeated, optional
`tag` (column 1). -/
def idTagSchema : Schema := [int64Leaf ["id"] 0 0 0, int64Leaf ["tag"] 1 1 1]

/-- Example schema: an optional `note` (column 0) followed by a required `id`
(column 1); no leaf is repeated. -/
def noteIdSchema : Schema := [int64Leaf ["note"] 0 1 0, int64Leaf ["id"] 0 0 1]

/-- Example sorting column: ascending, nulls last. -/
def ascending (path : List String) : SortingColumn :=
  { Path := path, Descending := false, NullsFirst := false }

/-- Example sorting column: descending, nulls first. -/
def descending (path : List String) : SortingColumn :=
  { Path := path, Descending := true, NullsFirst := true }

/-! ## Primitive comparators -/

/-- `compareBool` of `compare.go`. -/
def compareBool (v1 v2 : Bool) : Int :=
  if !v1 && v2 then -1
  else if v1 && !v2 then 1
  else 0

/-- `compareInt32` of `compare.go`. -/
def compareInt32 (v1 v2 : Int) : Int :=
  if v1 < v2 then -1
  else if v1 > v2 then 1
  else 0

/-- `compareUint32` of `compare.go`. -/
def compareUint32 (v1 v2 : Nat) : Int :=
  if v1 < v2 then -1
  else if v1 > v2 then 1
  else 0

/-- `compareUint64` of `compare.go`. -/
def compareUint64 (v1 v2 : Nat) : Int :=
  if v1 < v2 then -1
  else if v1 > v2 then 1
  else 0

/-- The unsigned integer whose big-endian encoding is the byte sequence. -/
def bigEndianNat (b : List Nat) : Nat :=
  b.foldl (fun acc x => acc * 256 + x) 0

/-- `binary.BigEndian.Uint64` of the Go standard library: the unsigned integer
encoded big-endian in the first 8 bytes. -/
def bigEndianUint64 (b : List Nat) : Nat :=
  bigEndianNat (b.take 8)

/-- `compareBE128` of `compare.go`; a block `*[16]byte` is the list of its
bytes, `v[:8]` is `v.take 8` and `v[8:]` is `v.drop 8`. -/
def compareBE128 (v1 v2 : List Nat) : Int :=
  let x := bigEndianUint64 (v1.take 8)
  let y := bigEndianUint64 (v2.take 8)
  if x < y then -1
  else if x > y then 1
  else
    let x := bigEndianUint64 (v1.drop 8)
    let y := bigEndianUint64 (v2.drop 8)
    if x < y then -1
    else if x > y then 1
    else 0

/-- `lessBE128` of `compare.go`. -/
def lessBE128 (v1 v2 : List Nat) : Bool :=
  let x := bigEndianUint64 (v1.take 8)
  let y := bigEndianUint64 (v2.take 8)
  if x < y then true
  else if x > y then false
  else
    let x := bigEndianUint64 (v1.drop 8)
    let y := bigEndianUint64 (v2.drop 8)
    decide (x < y)

/-- A 16-byte block: sixteen bytes, each below 256. -/
def isBlock128 (v : List Nat) : Prop :=
  v.length = 16 ∧ ∀ b ∈ v, b < 256

instance (v : List Nat) : Decidable (isBlock128 v) := by
  unfold isBlock128
  infer_instance

/-- Byte-wise lexicographic comparison of two byte sequences as unsigned bytes:
the first position where they differ decides. -/
def lexBytes : List Nat → List Nat → Int
  | [], [] => 0
  | [], _ :: _ => -1
  | _ :: _, [] => 1
  | x :: xs, y :: ys =>
    if x < y then -1
    else if x > y then 1
    else lexBytes xs ys

/-! ## Order properties of comparison functions -/

/-- The results are -1, 0 or +1. -/
def ternaryCmp {α : Type} (cmp : α → α → Int) : Prop :=
  ∀ a b, cmp a b = -1 ∨ cmp a b = 0 ∨ cmp a b = 1

/-- Swapping the arguments negates the result. -/
def antisymmetricCmp {α : Type} (cmp : α → α → Int) : Prop :=
  ∀ a b, cmp a b = -cmp b a

/-- The relation "compares as less or equal" is transitive. -/
def transitiveCmp {α : Type} (cmp : α → α → Int) : Prop :=
  ∀ a b c, cmp a b ≤ 0 → cmp b c ≤ 0 → cmp a c ≤ 0

/-- A comparison function with results in {-1, 0, +1} that is antisymmetric
and transitive. -/
def orderCmp {α : Type} (cmp : α → α → Int) : Prop :=
  ternaryCmp cmp ∧ antisymmetricCmp cmp ∧ transitiveCmp cmp

/-- The results are values of the 64-bit Go `int`. -/
def goIntCmp {α : Type} (cmp : α → α → Int) : Prop :=
  ∀ a b, -9223372036854775808 ≤ cmp a b ∧ cmp a b < 9223372036854775808

/-- A total order on the values that satisfy `dom`: an `orderCmp` there whose
result is zero exactly on equal values. -/
def totalOrderOn {α : Type} (dom : α → Prop) (cmp : α → α → Int) : Prop :=
  (∀ a b, dom a → dom b → (cmp a b = -1 ∨ cmp a b = 0 ∨ cmp a b = 1)) ∧
    (∀ a b, dom a → dom b → cmp a b = -cmp b a) ∧
    (∀ a b, dom a → dom b → (cmp a b = 0 ↔ a = b)) ∧
    (∀ a b c, dom a → dom b → dom c → cmp a b ≤ 0 → cmp b c ≤ 0 → cmp a c ≤ 0)

/-! ## The scanning loop with a log -/

/-- What a run of the loop of `compareRowsFuncOfScan` did: its outcome, the
number of iterations of the outer loop it started, and the positions at which
it read `row1` and `row2`, in order. -/
structure ScanLog where
  outcome : Outcome
  iterations : Nat
  reads1 : List Nat
  reads2 : List Nat

/-- The inner loop `skipToColumn`, returning also the positions of the row it
read. The test `i < len(row)` comes first, so the row is read only there. -/
def skipToColumnLog (row : Row) (columnIndex : Int) : Nat → Nat → Nat × List Nat
  | 0, i => (i, [])
  | fuel + 1, i =>
    if h : i < row.length then
      if row[i].columnIndex ≠ columnIndex then
        let rest := skipToColumnLog row columnIndex fuel (i + 1)
        (rest.1, i :: rest.2)
      else (i, [i])
    else (i, [])

/-- The outer loop `compareRowsFuncOfScan.loop`, returning also the log of the
run. The reads `row1[i1]`, `row2[i2]` of the comparison are logged whether or
not they are in range. -/
def compareRowsFuncOfScan.logLoop (compare : ValueFunc) (columnIndex : Int) (row1 row2 : Row) :
    Nat → Nat → Nat → ScanLog
  | 0, _, _ => { outcome := .outOfFuel, iterations := 0, reads1 := [], reads2 := [] }
  | fuel + 1, i1, i2 =>
    let s1 := skipToColumnLog row1 columnIndex (row1.length - i1) i1
    let s2 := skipToColumnLog row2 columnIndex (row2.length - i2) i2
    let i1 := s1.1
    let i2 := s2.1
    let end1 := decide (i1 = row1.length)
    let end2 := decide (i2 = row2.length)
    if end1 && end2 then
      { outcome := .value 0, iterations := 1, reads1 := s1.2, reads2 := s2.2 }
    else if end1 then
      { outcome := .value (-1), iterations := 1, reads1 := s1.2, reads2 := s2.2 }
    else if end2 then
      { outcome := .value 1, iterations := 1, reads1 := s1.2, reads2 := s2.2 }
    else
      match row1[i1]?, row2[i2]? with
      | some a, some b =>
        let cmp := compare a b
        if cmp ≠ 0 then
          { outcome := .value cmp, iterations := 1,
            reads1 := s1.2 ++ [i1], reads2 := s2.2 ++ [i2] }
        else
          let rest := compareRowsFuncOfScan.logLoop compare columnIndex row1 row2 fuel
            (i1 + 1) (i2 + 1)
          { outcome := rest.outcome, iterations := rest.iterations + 1,
            reads1 := s1.2 ++ i1 :: rest.reads1, reads2 := s2.2 ++ i2 :: rest.reads2 }
      | _, _ =>
        { outcome := .fault, iterations := 1,
          reads1 := s1.2 ++ [i1], reads2 := s2.2 ++ [i2] }

/-! ## Example data for byte strings -/

/-- Example value: the byte string `bytes` tagged with column `c`. -/
def byteArrayValue (c : Int) (bytes : List Nat) : Value :=
  { payload := .byteArray bytes, columnIndex := complement c }

/-- The bytes held by a value (none for another kind of payload). -/
def Value.byteArray (v : Value) : List Nat :=
  match v.payload with
  | .byteArray bytes => bytes
  | _ => []

/-- Example type: byte strings compared byte-wise. -/
def byteArrayType : Typ := { Compare := fun a b => lexBytes a.byteArray b.byteArray }

/-- The leaf `id` of the end-to-end example of the spec, for a given type: column 0,
required, not repeated. -/
def exampleIdLeaf (idType : Typ) : leafColumn :=
  { typ := idType, path := ["id"], maxRepetitionLevel := 0, maxDefinitionLevel := 0,
    columnIndex := 0 }

/-- The leaf `tag` of the end-to-end example of the spec, for a given type: column 1,
optional, repeated. -/
def exampleTagLeaf (tagType : Typ) : leafColumn :=
  { typ := tagType, path := ["tag"], maxRepetitionLevel := 1, maxDefinitionLevel := 1,
    columnIndex := 1 }

/-- The schema of the end-to-end example of the spec: `id` followed by `tag`. -/
def exampleSchema (idType tagType : Typ) : Schema :=
  [exampleIdLeaf idType, exampleTagLeaf tagType]


/-! ## Theorems -/

/-! ### The scanning comparator -/

/-- Filtering a suffix whose first element satisfies the predicate keeps that element. -/
theorem filter_drop_of_pos {α : Type} (p : α → Bool) (l : List α) (i : Nat) (h : i < l.length)
    (hp : p l[i] = true) : (l.drop i).filter p = l[i] :: (l.drop (i + 1)).filter p := by
  rw [List.drop_eq_getElem_cons h, List.filter_cons_of_pos hp]

/-- Filtering a suffix whose first element fails the predicate skips that element. -/
theorem filter_drop_of_neg {α : Type} (p : α → Bool) (l : List α) (i : Nat) (h : i < l.length)
    (hp : ¬ p l[i] = true) : (l.drop i).filter p = (l.drop (i + 1)).filter p := by
  rw [List.drop_eq_getElem_cons h, List.filter_cons_of_neg hp]

/-- The inner loop of the scan stops within the row, at the first value at or after `i` that
carries the tag, having skipped only values with another tag. -/
theorem skipToColumn_spec (row : Row) (tag : Int) :
    ∀ (fuel i : Nat), i ≤ row.length → row.length - i ≤ fuel →
      i ≤ skipToColumn row tag fuel i ∧ skipToColumn row tag fuel i ≤ row.length ∧
      (row.drop i).filter (fun v => decide (v.columnIndex = tag)) =
        (row.drop (skipToColumn row tag fuel i)).filter (fun v => decide (v.columnIndex = tag)) ∧
      ∀ h : skipToColumn row tag fuel i < row.length,
        row[skipToColumn row tag fuel i].columnIndex = tag := by
  intro fuel
  induction fuel with
  | zero =>
    intro i hi hf
    have : i = row.length := by omega
    subst this
    simp [skipToColumn]
  | succ fuel ih =>
    intro i hi hf
    unfold skipToColumn
    by_cases h : i < row.length
    · by_cases ht : row[i].columnIndex = tag
      · simp [h, ht]
        omega
      · simp only [h, ht, dite_true, ne_eq, not_false_eq_true, if_true]
        obtain ⟨h1, h2, h3, h4⟩ := ih (i + 1) (by omega) (by omega)
        refine ⟨by omega, h2, ?_, h4⟩
        rw [← h3]
        exact filter_drop_of_neg _ row i h (by simpa using ht)
    · have : i = row.length := by omega
      subst this
      simp

/-- The outer loop of the scan, started anywhere inside the rows with a budget of at least
`min(len(row1) - i1, len(row2) - i2) + 1` iterations, returns the lexicographic comparison of
the tagged values that remain. -/
theorem scanLoop_spec (cmp : ValueFunc) (tag : Int) (row1 row2 : Row) :
    ∀ (fuel i1 i2 : Nat), i1 ≤ row1.length → i2 ≤ row2.length →
      min (row1.length - i1) (row2.length - i2) + 1 ≤ fuel →
      compareRowsFuncOfScan.loop cmp tag row1 row2 fuel i1 i2 =
        .value (lexCompare cmp
          ((row1.drop i1).filter (fun v => decide (v.columnIndex = tag)))
          ((row2.drop i2).filter (fun v => decide (v.columnIndex = tag)))) := by
  intro fuel
  induction fuel with
  | zero => intro i1 i2 _ _ hf; omega
  | succ fuel ih =>
    intro i1 i2 h1 h2 hf
    obtain ⟨a1, a2, a3, a4⟩ := skipToColumn_spec row1 tag (row1.length - i1) i1 h1 le_rfl
    obtain ⟨b1, b2, b3, b4⟩ := skipToColumn_spec row2 tag (row2.length - i2) i2 h2 le_rfl
    unfold compareRowsFuncOfScan.loop
    simp only []
    rw [a3, b3]
    generalize skipToColumn row1 tag (row1.length - i1) i1 = j1 at *
    generalize skipToColumn row2 tag (row2.length - i2) i2 = j2 at *
    by_cases e1 : j1 = row1.length
    · by_cases e2 : j2 = row2.length
      · simp [e1, e2, lexCompare]
      · have hlt : j2 < row2.length := by omega
        rw [filter_drop_of_pos _ row2 j2 hlt (by simpa using b4 hlt)]
        simp [e1, e2, lexCompare]
    · have hlt1 : j1 < row1.length := by omega
      by_cases e2 : j2 = row2.length
      · rw [filter_drop_of_pos _ row1 j1 hlt1 (by simpa using a4 hlt1)]
        simp [e1, e2, lexCompare]
      · have hlt2 : j2 < row2.length := by omega
        rw [filter_drop_of_pos _ row1 j1 hlt1 (by simpa using a4 hlt1),
          filter_drop_of_pos _ row2 j2 hlt2 (by simpa using b4 hlt2)]
        simp only [e1, e2, decide_False, Bool.and_self, Bool.false_eq_true, if_false,
          List.getElem?_eq_getElem hlt1, List.getElem?_eq_getElem hlt2, lexCompare]
        by_cases hc : cmp row1[j1] row2[j2] = 0
        · simp only [hc, ne_eq, not_true_eq_false, if_false]
          exact ih (j1 + 1) (j2 + 1) (by omega) (by omega) (by omega)
        · simp [hc]

/-- The scanning comparator is the lexicographic comparison of the values of the column. -/
theorem compareRowsFuncOfScan_eq_lexCompare (c : Int) (cmp : ValueFunc) (row1 row2 : Row) :
    compareRowsFuncOfScan c cmp row1 row2 =
      .value (lexCompare cmp (valuesOf c row1) (valuesOf c row2)) := by
  unfold compareRowsFuncOfScan valuesOf
  simpa using scanLoop_spec cmp (complement c) row1 row2
    (min row1.length row2.length + 1) 0 0 (Nat.zero_le _) (Nat.zero_le _) (by simp)

/-- A sequence that is shorter and ties at every shared position compares as -1. -/
theorem lexCompare_of_shorter (cmp : ValueFunc) :
    ∀ xs ys : List Value, xs.length < ys.length →
      (∀ (k : Nat) (x y : Value), xs[k]? = some x → ys[k]? = some y → cmp x y = 0) →
      lexCompare cmp xs ys = -1 := by
  intro xs
  induction xs with
  | nil =>
    intro ys hlen _
    cases ys with
    | nil => simp at hlen
    | cons y ys => rfl
  | cons x xs ih =>
    intro ys hlen h
    cases ys with
    | nil => simp at hlen
    | cons y ys =>
      have h0 : cmp x y = 0 := h 0 x y (by simp) (by simp)
      simp only [lexCompare, h0, ne_eq, not_true_eq_false, if_false]
      exact ih ys (by simpa using hlen) (fun k a b ha hb => h (k + 1) a b (by simpa using ha)
        (by simpa using hb))

/-- A sequence that is longer and ties at every shared position compares as +1. -/
theorem lexCompare_of_longer (cmp : ValueFunc) :
    ∀ xs ys : List Value, ys.length < xs.length →
      (∀ (k : Nat) (x y : Value), xs[k]? = some x → ys[k]? = some y → cmp x y = 0) →
      lexCompare cmp xs ys = 1 := by
  intro xs
  induction xs with
  | nil => intro ys hlen _; simp at hlen
  | cons x xs ih =>
    intro ys hlen h
    cases ys with
    | nil => rfl
    | cons y ys =>
      have h0 : cmp x y = 0 := h 0 x y (by simp) (by simp)
      simp only [lexCompare, h0, ne_eq, not_true_eq_false, if_false]
      exact ih ys (by simpa using hlen) (fun k a b ha hb => h (k + 1) a b (by simpa using ha)
        (by simpa using hb))

/-- The bitwise complement is injective. -/
theorem complement_inj (a b : Int) : complement a = complement b ↔ a = b := by
  unfold complement
  omega

/-- In a run of values tagged `off`, `off + 1`, ... the values tagged `n` are the single value at
position `n - off`, if there is one. -/
theorem filter_tag_of_offset (n : Nat) :
    ∀ (row : Row) (off : Nat),
      (∀ i (h : i < row.length), row[i].columnIndex = complement (Int.ofNat (off + i))) →
      row.filter (fun v => decide (v.columnIndex = complement (Int.ofNat n))) =
        if off ≤ n then (row[n - off]?).toList else [] := by
  intro row
  induction row with
  | nil => intro off _; simp
  | cons x xs ih =>
    intro off h
    have hx : x.columnIndex = complement (Int.ofNat off) := by simpa using h 0 (by simp)
    have hxs : ∀ i (h : i < xs.length), xs[i].columnIndex =
        complement (Int.ofNat (off + 1 + i)) := by
      intro i hi
      have := h (i + 1) (by simpa using hi)
      simpa [Nat.add_assoc, Nat.add_comm 1 i] using this
    have ih' := ih (off + 1) hxs
    by_cases e : off = n
    · subst e
      rw [List.filter_cons_of_pos (by simpa using hx), ih']
      simp
    · have hne : ¬ x.columnIndex = complement (Int.ofNat n) := by
        rw [hx, complement_inj]
        intro hh
        exact e (Int.ofNat.inj hh)
      rw [List.filter_cons_of_neg (by simpa using hne), ih']
      by_cases hle : off ≤ n
      · have h1 : off + 1 ≤ n := by omega
        have h2 : n - off = (n - (off + 1)) + 1 := by omega
        simp only [h1, hle, if_true]
        rw [h2, List.getElem?_cons_succ]
      · have h1 : ¬ off + 1 ≤ n := by omega
        simp [h1, hle]

/-- In a positional row the values of column `c` are the value at position `c`, if any. -/
theorem valuesOf_positionalRow (row : Row) (h : positionalRow row) (c : Int) (hc : 0 ≤ c) :
    valuesOf c row = (row.index c).toList := by
  obtain ⟨n, rfl⟩ := Int.eq_ofNat_of_zero_le hc
  have := filter_tag_of_offset n row 0 (by simpa [positionalRow] using h)
  unfold valuesOf Row.index
  simpa using this

/-- Indexing a row below its length yields the value there. -/
theorem index_of_lt (row : Row) (k : Nat) (h : k < row.length) :
    row.index (Int.ofNat k) = some row[k] := by
  unfold Row.index
  simp [h]

/-! ### Composition and compaction -/

/-- The first non-zero outcome of a single outcome is that outcome. -/
theorem firstNonZero_singleton (o : Outcome) : firstNonZero [o] = o := by
  by_cases h : o = .value 0
  · simp [firstNonZero, h]
  · simp [firstNonZero, h]

/-- Leading zero results are passed over. -/
theorem firstNonZero_append_of_zero (pre post : List Outcome)
    (h : ∀ o ∈ pre, o = .value 0) : firstNonZero (pre ++ post) = firstNonZero post := by
  induction pre with
  | nil => rfl
  | cons o pre ih =>
    have ho : o = .value 0 := h o (List.mem_cons_self _ _)
    simp only [List.cons_append, firstNonZero, ho, if_true]
    exact ih (fun o' ho' => h o' (List.mem_cons_of_mem _ ho'))

/-- The composition is zero exactly when every outcome is zero. -/
theorem firstNonZero_eq_zero_iff (os : List Outcome) :
    firstNonZero os = .value 0 ↔ ∀ o ∈ os, o = .value 0 := by
  induction os with
  | nil => simp [firstNonZero]
  | cons o os ih =>
    by_cases ho : o = .value 0
    · simp [firstNonZero, ho, ih]
    · simp [firstNonZero, ho]

/-- The composition of results is a result. -/
theorem firstNonZero_of_values (os : List Outcome) (h : ∀ o ∈ os, ∃ v, o = .value v) :
    ∃ v, firstNonZero os = .value v := by
  induction os with
  | nil => exact ⟨0, rfl⟩
  | cons o os ih =>
    unfold firstNonZero
    by_cases ho : o = .value 0
    · rw [if_pos ho]
      exact ih (fun o' ho' => h o' (List.mem_cons_of_mem _ ho'))
    · rw [if_neg ho]
      exact h o (List.mem_cons_self _ _)

/-- The loop of `compareRowsFuncOfColumns` over non-nil comparators returns the first outcome
that is not the result zero. -/
theorem columnsLoop_eq_firstNonZero (row1 row2 : Row) (fs : List RowFunc) :
    compareRowsFuncOfColumns.loop row1 row2 (fs.map some) =
      firstNonZero (fs.map (fun f => f row1 row2)) := by
  induction fs with
  | nil => rfl
  | cons f fs ih =>
    simp only [List.map_cons, compareRowsFuncOfColumns.loop, callFunc, firstNonZero]
    cases hf : f row1 row2 with
    | value cmp =>
      by_cases hc : cmp = 0
      · simp [hc, ih]
      · simp [hc]
    | fault => simp
    | outOfFuel => simp

/-- The non-nil entries of a slice, in order. -/
theorem filter_isSome_eq_map_some {α : Type} (fs : List (Option α)) :
    fs.filter Option.isSome = (fs.filterMap id).map some := by
  induction fs with
  | nil => rfl
  | cons f fs ih =>
    cases f with
    | none => simpa using ih
    | some g => simpa using ih

/-- The compaction loop moves the non-nil entries that remain from position `i` on behind the
first `n` entries, in order, and counts them. -/
theorem compactLoop_spec :
    ∀ (k i n : Nat) (buf : List (Option RowFunc)), n ≤ i → i + k = buf.length →
      (compactLoop k i n buf).1.take (compactLoop k i n buf).2 =
          buf.take n ++ (buf.drop i).filter Option.isSome ∧
        (compactLoop k i n buf).2 = n + ((buf.drop i).filter Option.isSome).length := by
  intro k
  induction k with
  | zero =>
    intro i n buf _ hk
    have : buf.drop i = [] := List.drop_eq_nil_of_le (by omega)
    simp [compactLoop, this]
  | succ k ih =>
    intro i n buf hn hk
    have hi : i < buf.length := by omega
    have hdrop : buf.drop i = buf[i] :: buf.drop (i + 1) := List.drop_eq_getElem_cons hi
    unfold compactLoop
    rw [List.getElem?_eq_getElem hi]
    cases hb : buf[i] with
    | none =>
      simp only []
      obtain ⟨h1, h2⟩ := ih (i + 1) n buf (by omega) (by omega)
      rw [h1, h2, hdrop, hb]
      simp
    | some f =>
      simp only []
      obtain ⟨h1, h2⟩ := ih (i + 1) (n + 1) (buf.set n (some f)) (by omega) (by simp; omega)
      rw [h1, h2, hdrop, hb]
      have e1 : (buf.set n (some f)).drop (i + 1) = buf.drop (i + 1) :=
        List.drop_set_of_lt _ _ (by omega)
      have e2 : (buf.set n (some f)).take (n + 1) = buf.take n ++ [some f] := by
        have hlt : n < buf.length := by omega
        have e3 : (buf.set n (some f)).take n = buf.take n := by
          rw [List.set_take]
          exact List.set_eq_of_length_le (by simp)
        rw [List.take_succ, e3, List.getElem?_set_self hlt]
        rfl
      rw [e1, e2]
      simp
      omega

/-- The comparator returned by `compareRowsFuncOf` is the first-non-zero composition of the
non-nil entries of `compareFuncs` after the traversal, in slice order; this covers the three
cases of the final switch. -/
theorem compareRowsFuncOf_eq_firstNonZero (schema : Schema) (sortingColumns : List SortingColumn)
    (row1 row2 : Row) :
    compareRowsFuncOf schema sortingColumns row1 row2 =
      firstNonZero (((traverseSchema schema sortingColumns).compareFuncs.filterMap id).map
        (fun f => f row1 row2)) := by
  unfold compareRowsFuncOf
  try dsimp only
  generalize (traverseSchema schema sortingColumns).compareFuncs = fs
  obtain ⟨h1, h2⟩ := compactLoop_spec fs.length 0 0 fs le_rfl (by simp)
  simp only [List.take_zero, List.nil_append, List.drop_zero, Nat.zero_add,
    filter_isSome_eq_map_some, List.length_map] at h1 h2
  generalize compactLoop fs.length 0 0 fs = res at h1 h2
  obtain ⟨buf, n⟩ := res
  simp only at h1 h2
  generalize fs.filterMap id = ks at h1 h2
  subst h2
  match ks, h1 with
  | [], _ => rfl
  | [f], h1 =>
    have : buf[0]? = some (some f) := by
      have := congrArg (fun l => l[0]?) h1
      simpa [List.getElem?_take] using this
    simp only [List.length_singleton, this, callFunc, List.map_cons, List.map_nil,
      firstNonZero_singleton]
  | f :: g :: ks, h1 =>
    simp only [List.length_cons] at h1 ⊢
    simp only [compareRowsFuncOfColumns, h1]
    exact columnsLoop_eq_firstNonZero row1 row2 (f :: g :: ks)

/-! ### Matching of leaves and sorting columns -/

/-- The search finds an entry exactly when some sorting column has the path. -/
theorem searchSortingColumn_lt_iff (sortingColumns : List SortingColumn) (path : List String) :
    searchSortingColumn sortingColumns path < sortingColumns.length ↔
      ∃ s ∈ sortingColumns, path = s.Path := by
  unfold searchSortingColumn
  simp

/-- The entry found by the search has the path searched for. -/
theorem searchSortingColumn_path (sortingColumns : List SortingColumn) (path : List String)
    (i : Nat) (h : searchSortingColumn sortingColumns path = i) (hi : i < sortingColumns.length) :
    sortingColumns[i].Path = path := by
  subst h
  have := @List.findIdx_getElem _ (fun s : SortingColumn => decide (path = s.Path))
    sortingColumns hi
  unfold searchSortingColumn
  exact (of_decide_eq_true this).symm

/-- With distinct paths, searching the path of entry `i` finds entry `i`. -/
theorem searchSortingColumn_of_nodup (sortingColumns : List SortingColumn)
    (hs : (sortingColumns.map (fun s => s.Path)).Nodup) (i : Nat)
    (hi : i < sortingColumns.length) :
    searchSortingColumn sortingColumns sortingColumns[i].Path = i := by
  unfold searchSortingColumn
  rw [List.findIdx_eq hi]
  refine ⟨by simp, ?_⟩
  intro j hji
  have hj : j < sortingColumns.length := by omega
  simp only [decide_eq_false_iff_not]
  intro heq
  have bi : i < (sortingColumns.map (fun s => s.Path)).length := by simpa using hi
  have bj : j < (sortingColumns.map (fun s => s.Path)).length := by simpa using hj
  have h1 : (sortingColumns.map (fun s => s.Path))[i] =
      (sortingColumns.map (fun s => s.Path))[j] := by
    simpa using heq
  have := (List.Nodup.getElem_inj_iff hs).mp h1
  omega

/-- A matched sorting column has a leaf position inside the schema. -/
theorem leafPosition_lt_of_isMatched (schema : Schema) (s : SortingColumn)
    (h : isMatched schema s = true) : leafPosition schema s.Path < schema.length := by
  unfold leafPosition
  unfold isMatched at h
  rw [List.findIdx_lt_length]
  simpa using h

/-- The leaf at the position found has the path searched for. -/
theorem leafPosition_path (schema : Schema) (path : List String)
    (h : leafPosition schema path < schema.length) :
    schema[leafPosition schema path].path = path := by
  have := @List.findIdx_getElem _ (fun leaf : leafColumn => decide (leaf.path = path)) schema h
  exact of_decide_eq_true this

/-- With distinct leaf paths, no leaf after position `k` has the path of the leaf at `k`. -/
theorem getElem_path_ne_of_nodup (schema : Schema)
    (hl : (schema.map (fun leaf => leaf.path)).Nodup) (k : Nat) (hk : k < schema.length) :
    ∀ l ∈ schema.drop (k + 1), l.path ≠ schema[k].path := by
  intro l hmem heq
  obtain ⟨n, hn⟩ := List.mem_iff_getElem?.mp hmem
  rw [List.getElem?_drop] at hn
  have hlt : k + 1 + n < schema.length := by
    by_contra hge
    rw [List.getElem?_eq_none (by omega)] at hn
    exact Option.noConfusion hn
  rw [List.getElem?_eq_getElem hlt] at hn
  have hpath : schema[k + 1 + n].path = schema[k].path := by
    rw [Option.some.inj hn]
    exact heq
  have b1 : k + 1 + n < (schema.map (fun leaf => leaf.path)).length := by simpa using hlt
  have b2 : k < (schema.map (fun leaf => leaf.path)).length := by simpa using hk
  have h1 : (schema.map (fun leaf => leaf.path))[k + 1 + n] =
      (schema.map (fun leaf => leaf.path))[k] := by
    simpa using hpath
  have := (List.Nodup.getElem_inj_iff hl).mp h1
  omega

/-- The flag is false exactly when some leaf is repeated. -/
theorem noneRepeated_eq_false_iff (leaves : List leafColumn) :
    noneRepeated leaves = false ↔ ∃ l ∈ leaves, l.maxRepetitionLevel > 0 := by
  unfold noneRepeated
  rw [List.all_eq_false]
  constructor
  · rintro ⟨l, hl, h⟩
    exact ⟨l, hl, by simpa [Nat.pos_iff_ne_zero] using h⟩
  · rintro ⟨l, hl, h⟩
    exact ⟨l, hl, by simpa [Nat.pos_iff_ne_zero] using h⟩

/-- The flag is true exactly when no leaf is repeated. -/
theorem noneRepeated_eq_true_iff (leaves : List leafColumn) :
    noneRepeated leaves = true ↔ ∀ l ∈ leaves, l.maxRepetitionLevel = 0 := by
  unfold noneRepeated
  simp

/-- Update of the flag by one more leaf, as the callback does it. -/
theorem noneRepeated_append_singleton (visited : List leafColumn) (leaf : leafColumn) :
    noneRepeated (visited ++ [leaf]) =
      (if leaf.maxRepetitionLevel > 0 then false else noneRepeated visited) := by
  unfold noneRepeated
  by_cases h : leaf.maxRepetitionLevel = 0
  · simp [h]
  · have : leaf.maxRepetitionLevel > 0 := by omega
    simp [h, this]

/-- In a schema with dense column indexes the leaf at position `j` has column index `j`. -/
theorem denseColumnIndexes_getElem (schema : Schema) (hd : denseColumnIndexes schema)
    (j : Nat) (hj : j < schema.length) : schema[j].columnIndex = Int.ofNat j := by
  unfold denseColumnIndexes at hd
  have := congrArg (fun l => l[j]?) hd
  simpa [hj] using this

/-- A row with one value for each of the columns `0..k` has more than `k` values. -/
theorem length_of_counts (row : Row) (k : Nat)
    (h : ∀ j, j ≤ k → countOf (Int.ofNat j) row = 1) : k < row.length := by
  have hnd : ((List.range (k + 1)).map (fun j => complement (Int.ofNat j))).Nodup := by
    refine List.Nodup.map ?_ (List.nodup_range _)
    intro a b hab
    exact Int.ofNat.inj ((complement_inj _ _).mp hab)
  have hsub : (List.range (k + 1)).map (fun j => complement (Int.ofNat j)) ⊆
      row.map (fun v => v.columnIndex) := by
    intro t ht
    obtain ⟨j, hj, rfl⟩ := List.mem_map.mp ht
    have hjk : j ≤ k := by
      have := List.mem_range.mp hj
      omega
    have hcount := h j hjk
    unfold countOf at hcount
    have hne : valuesOf (Int.ofNat j) row ≠ [] := by
      intro hnil
      rw [hnil] at hcount
      simp at hcount
    obtain ⟨v, hv⟩ := List.exists_mem_of_ne_nil _ hne
    unfold valuesOf at hv
    rw [List.mem_filter] at hv
    exact List.mem_map.mpr ⟨v, hv.1, of_decide_eq_true hv.2⟩
  have := (List.subperm_of_subset hnd hsub).length_le
  simpa using this

/-! ### The comparator of a matched leaf -/

/-- Off the fast path the comparator of a leaf is the scanning comparator. -/
theorem sortFuncOf_of_general (direct : Bool) (leaf : leafColumn) (s : SortingColumn)
    (h : direct = false ∨ leaf.maxDefinitionLevel > 0) :
    sortFuncOf direct leaf s = compareRowsFuncOfScan leaf.columnIndex (valueFuncOf leaf s) := by
  unfold sortFuncOf valueFuncOf
  have hc : (direct && !decide (leaf.maxDefinitionLevel > 0)) = false := by
    rcases h with h | h
    · simp [h]
    · simp [h]
  simp only [hc, Bool.false_eq_true, if_false, decide_eq_true_eq]

/-- On the fast path the comparator of a leaf is a positional comparator. -/
theorem sortFuncOf_of_direct (leaf : leafColumn) (s : SortingColumn)
    (h : leaf.maxDefinitionLevel = 0) :
    sortFuncOf true leaf s =
      if s.Descending then compareRowsFuncOfIndexDescending leaf.columnIndex leaf.typ
      else compareRowsFuncOfIndexAscending leaf.columnIndex leaf.typ := by
  unfold sortFuncOf
  simp [h]

/-- The positional comparators return a result on well-formed rows when no leaf up to the
matched one is repeated. -/
theorem sortFuncOf_returns (schema : Schema) (hd : denseColumnIndexes schema)
    (pre post : List leafColumn) (leaf : leafColumn) (s : SortingColumn)
    (hsplit : schema = pre ++ leaf :: post) (r1 r2 : Row)
    (h1 : wellFormedRow schema r1) (h2 : wellFormedRow schema r2) :
    ∃ v, sortFuncOf (noneRepeated (pre ++ [leaf])) leaf s r1 r2 = .value v := by
  by_cases hgen : noneRepeated (pre ++ [leaf]) = false ∨ leaf.maxDefinitionLevel > 0
  · rw [sortFuncOf_of_general _ _ _ hgen, compareRowsFuncOfScan_eq_lexCompare]
    exact ⟨_, rfl⟩
  · have hdir : noneRepeated (pre ++ [leaf]) = true := by
      cases hb : noneRepeated (pre ++ [leaf])
      · exact absurd (Or.inl hb) hgen
      · rfl
    have hreq : leaf.maxDefinitionLevel = 0 := by
      by_contra hne
      exact hgen (Or.inr (Nat.pos_of_ne_zero hne))
    have hnone := (noneRepeated_eq_true_iff _).mp hdir
    have hlen : pre.length < schema.length := by
      rw [hsplit, List.length_append, List.length_cons]
      omega
    have hcol : leaf.columnIndex = Int.ofNat pre.length := by
      rw [← denseColumnIndexes_getElem schema hd _ hlen]
      have e : schema[pre.length]? = some leaf := by
        rw [hsplit, List.getElem?_append_right (Nat.le_refl _), Nat.sub_self]
        simp
      rw [List.getElem?_eq_getElem hlen] at e
      rw [Option.some.inj e]
    have hcounts : ∀ row : Row, wellFormedRow schema row →
        ∀ j, j ≤ pre.length → countOf (Int.ofNat j) row = 1 := by
      intro row hrow j hj
      have hjlt : j < schema.length := by omega
      have hmem : schema[j] ∈ pre ++ [leaf] := by
        have e : schema[j]? = (pre ++ [leaf])[j]? := by
          rw [hsplit, show pre ++ leaf :: post = (pre ++ [leaf]) ++ post by simp]
          exact List.getElem?_append_left (by rw [List.length_append]; simp; omega)
        rw [List.getElem?_eq_getElem hjlt] at e
        exact List.getElem?_mem e.symm
      have := hrow.2 schema[j] (List.getElem_mem _) (hnone _ hmem)
      rwa [denseColumnIndexes_getElem schema hd j hjlt] at this
    have b1 := length_of_counts r1 _ (hcounts r1 h1)
    have b2 := length_of_counts r2 _ (hcounts r2 h2)
    rw [hdir, sortFuncOf_of_direct leaf s hreq, hcol]
    by_cases hdesc : s.Descending = true
    · rw [if_pos hdesc]
      unfold compareRowsFuncOfIndexDescending
      rw [index_of_lt r1 _ b1, index_of_lt r2 _ b2]
      exact ⟨_, rfl⟩
    · rw [if_neg hdesc]
      unfold compareRowsFuncOfIndexAscending
      rw [index_of_lt r1 _ b1, index_of_lt r2 _ b2]
      exact ⟨_, rfl⟩

/-! ### The traversal of the schema -/

/-- After visiting leaves, `direct` holds when it held before and none of them is repeated. -/
theorem foldl_visitLeaf_direct (sortingColumns : List SortingColumn) (leaves : List leafColumn) :
    ∀ st : Synthesis, (leaves.foldl (visitLeaf sortingColumns) st).direct =
      (st.direct && leaves.all (fun leaf => decide (leaf.maxRepetitionLevel = 0))) := by
  induction leaves with
  | nil => intro st; simp
  | cons leaf leaves ih =>
    intro st
    rw [List.foldl_cons, ih]
    have : (visitLeaf sortingColumns st leaf).direct =
        (st.direct && decide (leaf.maxRepetitionLevel = 0)) := by
      unfold visitLeaf
      by_cases hr : leaf.maxRepetitionLevel = 0
      · simp only [hr]; split <;> simp
      · have : leaf.maxRepetitionLevel > 0 := by omega
        simp only [this, hr]; split <;> simp
    rw [this]
    simp [Bool.and_assoc]

/-- A visit keeps the length of `compareFuncs`. -/
theorem visitLeaf_length (sortingColumns : List SortingColumn) (st : Synthesis)
    (leaf : leafColumn) :
    (visitLeaf sortingColumns st leaf).compareFuncs.length = st.compareFuncs.length := by
  unfold visitLeaf
  simp only []
  split <;> simp

/-- The traversal keeps the length of `compareFuncs`. -/
theorem foldl_visitLeaf_length (sortingColumns : List SortingColumn) (leaves : List leafColumn) :
    ∀ st : Synthesis, (leaves.foldl (visitLeaf sortingColumns) st).compareFuncs.length =
      st.compareFuncs.length := by
  induction leaves with
  | nil => intro st; rfl
  | cons leaf leaves ih => intro st; rw [List.foldl_cons, ih, visitLeaf_length]

/-- A visit writes no slot other than the one the search returns. -/
theorem visitLeaf_getElem?_of_ne (sortingColumns : List SortingColumn) (st : Synthesis)
    (leaf : leafColumn) (i : Nat) (h : searchSortingColumn sortingColumns leaf.path ≠ i) :
    (visitLeaf sortingColumns st leaf).compareFuncs[i]? = st.compareFuncs[i]? := by
  unfold visitLeaf
  simp only []
  split
  · simp [List.getElem?_set_ne h]
  · rfl

/-- Leaves that do not match entry `i` leave slot `i` alone. -/
theorem foldl_visitLeaf_getElem?_of_ne (sortingColumns : List SortingColumn)
    (leaves : List leafColumn) (i : Nat)
    (h : ∀ leaf ∈ leaves, searchSortingColumn sortingColumns leaf.path ≠ i) :
    ∀ st : Synthesis, (leaves.foldl (visitLeaf sortingColumns) st).compareFuncs[i]? =
      st.compareFuncs[i]? := by
  induction leaves with
  | nil => intro st; rfl
  | cons leaf leaves ih =>
    intro st
    rw [List.foldl_cons, ih (fun l hl => h l (List.mem_cons_of_mem _ hl)),
      visitLeaf_getElem?_of_ne _ _ _ _ (h leaf (List.mem_cons_self _ _))]

/-- A visit of a leaf matching entry `i` writes the comparator of the leaf into slot `i`. -/
theorem visitLeaf_getElem?_of_eq (sortingColumns : List SortingColumn) (st : Synthesis)
    (leaf : leafColumn) (i : Nat) (h : searchSortingColumn sortingColumns leaf.path = i)
    (hi : i < sortingColumns.length) (hlen : st.compareFuncs.length = sortingColumns.length) :
    (visitLeaf sortingColumns st leaf).compareFuncs[i]? =
      some (some (sortFuncOf (st.direct && decide (leaf.maxRepetitionLevel = 0)) leaf
        sortingColumns[i])) := by
  subst h
  unfold visitLeaf
  simp only [hi, dite_true]
  rw [List.getElem?_set_self (by omega)]
  by_cases hr : leaf.maxRepetitionLevel = 0
  · simp [hr]
  · have : leaf.maxRepetitionLevel > 0 := by omega
    simp [this, hr]

/-- After the traversal `compareFuncs` has one slot per sorting column. -/
theorem traverseSchema_length (schema : Schema) (sortingColumns : List SortingColumn) :
    (traverseSchema schema sortingColumns).compareFuncs.length = sortingColumns.length := by
  unfold traverseSchema forEachLeafColumnOf
  rw [foldl_visitLeaf_length]
  simp

/-- The entry of `compareFuncs` for a sorting column after the traversal is the comparator
built at the last leaf that matches it. -/
theorem traverseSchema_getElem?_of_last (sortingColumns : List SortingColumn)
    (pre post : List leafColumn) (leaf : leafColumn) (i : Nat)
    (h : searchSortingColumn sortingColumns leaf.path = i) (hi : i < sortingColumns.length)
    (hpost : ∀ l ∈ post, searchSortingColumn sortingColumns l.path ≠ i) :
    (traverseSchema (pre ++ leaf :: post) sortingColumns).compareFuncs[i]? =
      some (some (sortFuncOf ((pre ++ [leaf]).all (fun l => decide (l.maxRepetitionLevel = 0)))
        leaf sortingColumns[i])) := by
  unfold traverseSchema forEachLeafColumnOf
  rw [List.foldl_append, List.foldl_cons, foldl_visitLeaf_getElem?_of_ne _ _ _ hpost,
    visitLeaf_getElem?_of_eq _ _ _ _ h hi (by rw [foldl_visitLeaf_length]; simp),
    foldl_visitLeaf_direct]
  simp

/-- The slot of an entry that no leaf matches stays nil. -/
theorem traverseSchema_getElem?_of_unmatched (schema : Schema)
    (sortingColumns : List SortingColumn) (i : Nat) (hi : i < sortingColumns.length)
    (h : ∀ l ∈ schema, searchSortingColumn sortingColumns l.path ≠ i) :
    (traverseSchema schema sortingColumns).compareFuncs[i]? = some none := by
  unfold traverseSchema forEachLeafColumnOf
  rw [foldl_visitLeaf_getElem?_of_ne _ _ _ h]
  simp [hi]

/-- Leaves that match no entry leave `compareFuncs` unchanged. -/
theorem foldl_visitLeaf_of_unmatched (sortingColumns : List SortingColumn)
    (leaves : List leafColumn)
    (h : ∀ leaf ∈ leaves, ¬ searchSortingColumn sortingColumns leaf.path < sortingColumns.length) :
    ∀ st : Synthesis, (leaves.foldl (visitLeaf sortingColumns) st).compareFuncs =
      st.compareFuncs := by
  induction leaves with
  | nil => intro st; rfl
  | cons leaf leaves ih =>
    intro st
    rw [List.foldl_cons, ih (fun l hl => h l (List.mem_cons_of_mem _ hl))]
    unfold visitLeaf
    simp only [h leaf (List.mem_cons_self _ _), dite_false]

/-- The traversals for `[v]`, `[v, u]` and `[u, v]` run in step when no leaf has the path
of `u`: they write the same comparator for `v` and leave the slot of `u` nil. -/
theorem traverse_with_unmatched (v u : SortingColumn) :
    ∀ (leaves : List leafColumn), (∀ leaf ∈ leaves, leaf.path ≠ u.Path) →
      ∀ (x : Option RowFunc) (d : Bool), ∃ (y : Option RowFunc) (d' : Bool),
        leaves.foldl (visitLeaf [v]) { compareFuncs := [x], direct := d } =
            { compareFuncs := [y], direct := d' } ∧
          leaves.foldl (visitLeaf [v, u]) { compareFuncs := [x, none], direct := d } =
            { compareFuncs := [y, none], direct := d' } ∧
          leaves.foldl (visitLeaf [u, v]) { compareFuncs := [none, x], direct := d } =
            { compareFuncs := [none, y], direct := d' } := by
  intro leaves
  induction leaves with
  | nil => intro _ x d; exact ⟨x, d, rfl, rfl, rfl⟩
  | cons leaf leaves ih =>
    intro h x d
    have hu : leaf.path ≠ u.Path := h leaf (List.mem_cons_self _ _)
    have ih' := ih (fun l hl => h l (List.mem_cons_of_mem _ hl))
    simp only [List.foldl_cons]
    by_cases hv : leaf.path = v.Path
    · have e1 : visitLeaf [v] { compareFuncs := [x], direct := d } leaf =
          { compareFuncs := [some (sortFuncOf
              (if leaf.maxRepetitionLevel > 0 then false else d) leaf v)],
            direct := if leaf.maxRepetitionLevel > 0 then false else d } := by
        simp [visitLeaf, searchSortingColumn, List.findIdx_cons, hv]
      have e2 : visitLeaf [v, u] { compareFuncs := [x, none], direct := d } leaf =
          { compareFuncs := [some (sortFuncOf
              (if leaf.maxRepetitionLevel > 0 then false else d) leaf v), none],
            direct := if leaf.maxRepetitionLevel > 0 then false else d } := by
        simp [visitLeaf, searchSortingColumn, List.findIdx_cons, hv]
      have e3 : visitLeaf [u, v] { compareFuncs := [none, x], direct := d } leaf =
          { compareFuncs := [none, some (sortFuncOf
              (if leaf.maxRepetitionLevel > 0 then false else d) leaf v)],
            direct := if leaf.maxRepetitionLevel > 0 then false else d } := by
        have hvu : ¬ v.Path = u.Path := fun e => hu (hv.trans e)
        simp [visitLeaf, searchSortingColumn, List.findIdx_cons, hv, hvu]
      rw [e1, e2, e3]
      exact ih' _ _
    · have e1 : visitLeaf [v] { compareFuncs := [x], direct := d } leaf =
          { compareFuncs := [x],
            direct := if leaf.maxRepetitionLevel > 0 then false else d } := by
        simp [visitLeaf, searchSortingColumn, List.findIdx_cons, hv]
      have e2 : visitLeaf [v, u] { compareFuncs := [x, none], direct := d } leaf =
          { compareFuncs := [x, none],
            direct := if leaf.maxRepetitionLevel > 0 then false else d } := by
        simp [visitLeaf, searchSortingColumn, List.findIdx_cons, hv, hu]
      have e3 : visitLeaf [u, v] { compareFuncs := [none, x], direct := d } leaf =
          { compareFuncs := [none, x],
            direct := if leaf.maxRepetitionLevel > 0 then false else d } := by
        simp [visitLeaf, searchSortingColumn, List.findIdx_cons, hv, hu]
      rw [e1, e2, e3]
      exact ih' _ _

/-- Every comparator in `compareFuncs` after a traversal was built by `sortFuncOf` at some
leaf, with `direct` telling whether a leaf up to that one is repeated. -/
theorem foldl_visitLeaf_forall (sortingColumns : List SortingColumn) (P : RowFunc → Prop) :
    ∀ (rest visited : List leafColumn) (st : Synthesis),
      st.direct = noneRepeated visited →
      (∀ f, some f ∈ st.compareFuncs → P f) →
      (∀ (pre post : List leafColumn) (leaf : leafColumn) (s : SortingColumn),
        visited ++ rest = pre ++ leaf :: post → s ∈ sortingColumns →
        P (sortFuncOf (noneRepeated (pre ++ [leaf])) leaf s)) →
      ∀ f, some f ∈ (rest.foldl (visitLeaf sortingColumns) st).compareFuncs → P f := by
  intro rest
  induction rest with
  | nil => intro visited st _ hst _ f hf; exact hst f hf
  | cons leaf rest ih =>
    intro visited st hd hst hbuilt f hf
    rw [List.foldl_cons] at hf
    have hd' : (visitLeaf sortingColumns st leaf).direct = noneRepeated (visited ++ [leaf]) := by
      rw [noneRepeated_append_singleton, ← hd]
      unfold visitLeaf
      simp only []
      split <;> rfl
    refine ih (visited ++ [leaf]) (visitLeaf sortingColumns st leaf) hd' ?_ ?_ f hf
    · intro g hg
      unfold visitLeaf at hg
      simp only [] at hg
      split at hg
      · rename_i hlt
        rcases List.mem_or_eq_of_mem_set hg with hmem | heq
        · exact hst g hmem
        · cases heq
          rw [hd, ← noneRepeated_append_singleton]
          exact hbuilt visited rest leaf _ rfl (List.getElem_mem _)
      · exact hst g hg
    · intro pre post l s hsplit hs
      exact hbuilt pre post l s (by simpa using hsplit) hs

/-- With distinct paths on both sides, the slot of a sorting column after the traversal holds
the comparator of its leaf when it has one and stays nil otherwise. -/
theorem traverseSchema_getElem?_of_nodup (schema : Schema) (sortingColumns : List SortingColumn)
    (hs : (sortingColumns.map (fun s => s.Path)).Nodup)
    (hl : (schema.map (fun leaf => leaf.path)).Nodup) (i : Nat)
    (hi : i < sortingColumns.length) :
    (traverseSchema schema sortingColumns).compareFuncs[i]? =
      some (if isMatched schema sortingColumns[i]
        then some (keyFuncOf schema sortingColumns[i]) else none) := by
  by_cases hm : isMatched schema sortingColumns[i] = true
  · rw [if_pos hm]
    have hk := leafPosition_lt_of_isMatched schema _ hm
    have hpath := leafPosition_path schema _ hk
    generalize hkdef : leafPosition schema sortingColumns[i].Path = k at hk hpath
    have hsplit : schema = schema.take k ++ schema[k] :: schema.drop (k + 1) := by
      rw [List.getElem_cons_drop, List.take_append_drop]
    have hsearch : searchSortingColumn sortingColumns schema[k].path = i := by
      rw [hpath]
      exact searchSortingColumn_of_nodup sortingColumns hs i hi
    have hpost : ∀ l ∈ schema.drop (k + 1),
        searchSortingColumn sortingColumns l.path ≠ i := by
      intro l hmem heq
      have := searchSortingColumn_path sortingColumns l.path i heq hi
      exact getElem_path_ne_of_nodup schema hl k hk l hmem (by rw [hpath, this])
    have key := traverseSchema_getElem?_of_last sortingColumns (schema.take k)
      (schema.drop (k + 1)) schema[k] i hsearch hi hpost
    rw [← hsplit] at key
    rw [key]
    unfold keyFuncOf
    rw [hkdef, List.getElem?_eq_getElem hk]
    simp only [noneRepeated]
    rw [List.take_succ, List.getElem?_eq_getElem hk]
    rfl
  · rw [if_neg hm]
    apply traverseSchema_getElem?_of_unmatched _ _ _ hi
    intro l hmem heq
    have := searchSortingColumn_path sortingColumns l.path i heq hi
    apply hm
    unfold isMatched
    rw [List.any_eq_true]
    exact ⟨l, hmem, by simpa using this.symm⟩

/-- With distinct paths on both sides, `compareFuncs` after the traversal lists, in the order
of the sort specification, the comparator of each entry that names a leaf and nil for the
others. -/
theorem traverseSchema_compareFuncs_of_nodup (schema : Schema)
    (sortingColumns : List SortingColumn)
    (hs : (sortingColumns.map (fun s => s.Path)).Nodup)
    (hl : (schema.map (fun leaf => leaf.path)).Nodup) :
    (traverseSchema schema sortingColumns).compareFuncs =
      sortingColumns.map (fun s => if isMatched schema s
        then some (keyFuncOf schema s) else none) := by
  apply List.ext_getElem?
  intro i
  by_cases hi : i < sortingColumns.length
  · rw [traverseSchema_getElem?_of_nodup schema sortingColumns hs hl i hi]
    simp [hi]
  · rw [List.getElem?_eq_none (by rw [traverseSchema_length]; omega),
      List.getElem?_eq_none (by simp; omega)]

/-- Dropping the nil slots keeps the comparators of the matched entries, in order. -/
theorem filterMap_matched (schema : Schema) (sortingColumns : List SortingColumn) :
    (sortingColumns.map (fun s => if isMatched schema s
        then some (keyFuncOf schema s) else none)).filterMap id =
      (sortingColumns.filter (isMatched schema)).map (keyFuncOf schema) := by
  induction sortingColumns with
  | nil => rfl
  | cons s rest ih =>
    by_cases hm : isMatched schema s = true
    · simp [hm, ih]
    · simp [hm, ih]


/-! ### Big-endian byte sequences -/

/-- Folding the digits from a start value. -/
theorem foldl_bigEndian (xs : List Nat) :
    ∀ a : Nat, xs.foldl (fun acc x => acc * 256 + x) a =
      a * 256 ^ xs.length + xs.foldl (fun acc x => acc * 256 + x) 0 := by
  induction xs with
  | nil => intro a; simp
  | cons x xs ih =>
    intro a
    simp only [List.foldl_cons, List.length_cons]
    rw [ih (a * 256 + x), ih (0 * 256 + x)]
    ring

/-- The first byte is the most significant digit. -/
theorem bigEndianNat_cons (x : Nat) (xs : List Nat) :
    bigEndianNat (x :: xs) = x * 256 ^ xs.length + bigEndianNat xs := by
  unfold bigEndianNat
  rw [List.foldl_cons, foldl_bigEndian]
  simp

/-- The value of a concatenation. -/
theorem bigEndianNat_append (xs ys : List Nat) :
    bigEndianNat (xs ++ ys) = bigEndianNat xs * 256 ^ ys.length + bigEndianNat ys := by
  unfold bigEndianNat
  rw [List.foldl_append, foldl_bigEndian]

/-- A sequence of `n` bytes encodes a number below `256 ^ n`. -/
theorem bigEndianNat_lt (xs : List Nat) (h : ∀ b ∈ xs, b < 256) :
    bigEndianNat xs < 256 ^ xs.length := by
  induction xs with
  | nil => simp [bigEndianNat]
  | cons x xs ih =>
    rw [bigEndianNat_cons, List.length_cons, pow_succ]
    have hx : x < 256 := h x (List.mem_cons_self _ _)
    have hxs := ih (fun b hb => h b (List.mem_cons_of_mem _ hb))
    have : (x + 1) * 256 ^ xs.length ≤ 256 * 256 ^ xs.length :=
      Nat.mul_le_mul_right _ (by omega)
    rw [Nat.mul_comm (256 ^ xs.length) 256]
    nlinarith

/-- Byte-wise comparison is zero exactly on equal sequences. -/
theorem lexBytes_eq_zero_iff : ∀ xs ys : List Nat, lexBytes xs ys = 0 ↔ xs = ys := by
  intro xs
  induction xs with
  | nil =>
    intro ys
    cases ys <;> simp [lexBytes]
  | cons x xs ih =>
    intro ys
    cases ys with
    | nil => simp [lexBytes]
    | cons y ys =>
      unfold lexBytes
      by_cases h1 : x < y
      · simp [h1]; omega
      · by_cases h2 : x > y
        · simp [h1, h2]; omega
        · have : x = y := by omega
          subst this
          simp [ih ys]

/-- For byte sequences of equal length, byte-wise comparison is the comparison of the numbers
they encode. -/
theorem lexBytes_eq_compare : ∀ xs ys : List Nat, xs.length = ys.length →
    (∀ b ∈ xs, b < 256) → (∀ b ∈ ys, b < 256) →
    lexBytes xs ys =
      if bigEndianNat xs < bigEndianNat ys then -1
      else if bigEndianNat xs > bigEndianNat ys then 1 else 0 := by
  intro xs
  induction xs with
  | nil =>
    intro ys hlen _ _
    cases ys with
    | nil => simp [lexBytes, bigEndianNat]
    | cons y ys => simp at hlen
  | cons x xs ih =>
    intro ys hlen hx hy
    cases ys with
    | nil => simp at hlen
    | cons y ys =>
      have hlen' : xs.length = ys.length := by simpa using hlen
      have bx := bigEndianNat_lt xs (fun b hb => hx b (List.mem_cons_of_mem _ hb))
      have by' := bigEndianNat_lt ys (fun b hb => hy b (List.mem_cons_of_mem _ hb))
      rw [hlen'] at bx
      rw [bigEndianNat_cons, bigEndianNat_cons, hlen']
      unfold lexBytes
      generalize 256 ^ ys.length = P at bx by'
      by_cases h1 : x < y
      · have : (x + 1) * P ≤ y * P := Nat.mul_le_mul_right _ h1
        have hlt : x * P + bigEndianNat xs < y * P + bigEndianNat ys := by nlinarith
        simp [h1, hlt]
      · by_cases h2 : x > y
        · have : (y + 1) * P ≤ x * P := Nat.mul_le_mul_right _ h2
          have hlt : y * P + bigEndianNat ys < x * P + bigEndianNat xs := by nlinarith
          have hnlt : ¬ x * P + bigEndianNat xs < y * P + bigEndianNat ys := by omega
          simp [h1, h2, hlt, hnlt]
        · have : x = y := by omega
          subst this
          rw [if_neg h1, if_neg h2,
            ih ys hlen' (fun b hb => hx b (List.mem_cons_of_mem _ hb))
              (fun b hb => hy b (List.mem_cons_of_mem _ hb))]
          by_cases c1 : bigEndianNat xs < bigEndianNat ys
          · have : x * P + bigEndianNat xs < x * P + bigEndianNat ys := by omega
            simp [c1, this]
          · by_cases c2 : bigEndianNat xs > bigEndianNat ys
            · have n1 : ¬ x * P + bigEndianNat xs < x * P + bigEndianNat ys := by omega
              have n2 : x * P + bigEndianNat ys < x * P + bigEndianNat xs := by omega
              simp [c1, c2, n1, n2]
            · have n1 : ¬ x * P + bigEndianNat xs < x * P + bigEndianNat ys := by omega
              have n2 : ¬ x * P + bigEndianNat ys < x * P + bigEndianNat xs := by omega
              simp [c1, c2, n1, n2]

/-- The two halves of a block, as numbers. -/
theorem bigEndianNat_block (v : List Nat) (h : isBlock128 v) :
    bigEndianNat v =
        bigEndianUint64 (v.take 8) * 18446744073709551616 + bigEndianUint64 (v.drop 8) ∧
      bigEndianUint64 (v.drop 8) < 18446744073709551616 := by
  obtain ⟨hlen, hb⟩ := h
  have e1 : bigEndianUint64 (v.take 8) = bigEndianNat (v.take 8) := by
    unfold bigEndianUint64
    rw [List.take_take]
    rfl
  have e2 : bigEndianUint64 (v.drop 8) = bigEndianNat (v.drop 8) := by
    unfold bigEndianUint64
    rw [List.take_of_length_le (by simp [hlen])]
  have hl : (v.drop 8).length = 8 := by simp [hlen]
  have hlt := bigEndianNat_lt (v.drop 8) (fun b hb' => hb b (List.mem_of_mem_drop hb'))
  rw [hl] at hlt
  rw [e1, e2]
  refine ⟨?_, by norm_num at hlt; exact hlt⟩
  conv_lhs => rw [← List.take_append_drop 8 v]
  rw [bigEndianNat_append, hl]
  norm_num

/-- On blocks `compareBE128` is the comparison of the numbers they encode. -/
theorem compareBE128_eq_compare (v1 v2 : List Nat) (h1 : isBlock128 v1) (h2 : isBlock128 v2) :
    compareBE128 v1 v2 =
      if bigEndianNat v1 < bigEndianNat v2 then -1
      else if bigEndianNat v1 > bigEndianNat v2 then 1 else 0 := by
  obtain ⟨a1, a2⟩ := bigEndianNat_block v1 h1
  obtain ⟨b1, b2⟩ := bigEndianNat_block v2 h2
  unfold compareBE128
  simp only []
  rw [a1, b1]
  generalize bigEndianUint64 (v1.take 8) = H1 at *
  generalize bigEndianUint64 (v2.take 8) = H2 at *
  generalize bigEndianUint64 (v1.drop 8) = L1 at *
  generalize bigEndianUint64 (v2.drop 8) = L2 at *
  split_ifs <;> omega

/-- `compareBE128` only takes the values -1, 0 and +1, and swapping the arguments negates it. -/
theorem compareBE128_antisymmetric (v1 v2 : List Nat) :
    (compareBE128 v1 v2 = -1 ∨ compareBE128 v1 v2 = 0 ∨ compareBE128 v1 v2 = 1) ∧
      compareBE128 v1 v2 = -compareBE128 v2 v1 := by
  unfold compareBE128
  simp only []
  generalize bigEndianUint64 (v1.take 8) = H1
  generalize bigEndianUint64 (v2.take 8) = H2
  generalize bigEndianUint64 (v1.drop 8) = L1
  generalize bigEndianUint64 (v2.drop 8) = L2
  split_ifs <;> omega

/-- Blocks that encode the same number are equal. -/
theorem bigEndianNat_injective (v1 v2 : List Nat) (h1 : isBlock128 v1) (h2 : isBlock128 v2)
    (h : bigEndianNat v1 = bigEndianNat v2) : v1 = v2 := by
  have := lexBytes_eq_compare v1 v2 (h1.1.trans h2.1.symm) h1.2 h2.2
  rw [h] at this
  simp only [lt_self_iff_false, if_false, gt_iff_lt] at this
  exact (lexBytes_eq_zero_iff v1 v2).mp this

/-- The integer comparators: a total order that follows `<`. -/
theorem compareInt_totalOrder (cmp : Int → Int → Int)
    (h : ∀ a b, cmp a b = if a < b then -1 else if a > b then 1 else 0) :
    totalOrderOn (fun _ => True) cmp := by
  refine ⟨?_, ?_, ?_, ?_⟩
  · intro a b _ _
    rw [h]
    split_ifs <;> simp
  · intro a b _ _
    rw [h, h]
    split_ifs <;> omega
  · intro a b _ _
    rw [h]
    split_ifs <;> simp <;> omega
  · intro a b c _ _ _
    rw [h, h, h]
    split_ifs <;> omega

/-- The unsigned comparators: a total order that follows `<`. -/
theorem compareNat_totalOrder (cmp : Nat → Nat → Int)
    (h : ∀ a b, cmp a b = if a < b then -1 else if a > b then 1 else 0) :
    totalOrderOn (fun _ => True) cmp := by
  refine ⟨?_, ?_, ?_, ?_⟩
  · intro a b _ _
    rw [h]
    split_ifs <;> simp
  · intro a b _ _
    rw [h, h]
    split_ifs <;> omega
  · intro a b _ _
    rw [h]
    split_ifs <;> simp <;> omega
  · intro a b c _ _ _
    rw [h, h, h]
    split_ifs <;> omega

/-- `compareBool` is a total order on the booleans. -/
theorem compareBool_totalOrder : totalOrderOn (fun _ => True) compareBool := by
  refine ⟨?_, ?_, ?_, ?_⟩
  · intro a b _ _
    cases a <;> cases b <;> decide
  · intro a b _ _
    cases a <;> cases b <;> decide
  · intro a b _ _
    cases a <;> cases b <;> decide
  · intro a b c _ _ _
    cases a <;> cases b <;> cases c <;> decide

/-- `compareBE128` is a total order on 16-byte blocks. -/
theorem compareBE128_totalOrder : totalOrderOn isBlock128 compareBE128 := by
  refine ⟨?_, ?_, ?_, ?_⟩
  · intro a b _ _
    exact (compareBE128_antisymmetric a b).1
  · intro a b _ _
    exact (compareBE128_antisymmetric a b).2
  · intro a b ha hb
    rw [compareBE128_eq_compare a b ha hb]
    constructor
    · intro h
      apply bigEndianNat_injective a b ha hb
      split_ifs at h <;> omega
    · intro h
      subst h
      simp
  · intro a b c ha hb hc
    rw [compareBE128_eq_compare a b ha hb, compareBE128_eq_compare b c hb hc,
      compareBE128_eq_compare a c ha hc]
    split_ifs <;> omega

/-! ### Order properties of the combinators -/

/-- Go negation is exact on integers strictly between the least `int` and `2 ^ 63`. -/
theorem negInt_of_inRange (v : Int) (h1 : -9223372036854775808 < v)
    (h2 : v < 9223372036854775808) : negInt v = -v := by
  unfold negInt wrapInt
  norm_num
  omega

/-- Go negation is exact on the results of an antisymmetric comparison with Go `int` results:
such a comparison never returns the least `int`, whose opposite is no `int`. -/
theorem negInt_of_antisymmetric {α : Type} (cmp : α → α → Int) (hr : goIntCmp cmp)
    (ha : antisymmetricCmp cmp) (a b : α) : negInt (cmp a b) = -cmp a b := by
  have h1 := hr b a
  have h2 := hr a b
  have h3 := ha a b
  exact negInt_of_inRange _ (by omega) (by omega)

/-- Go negation is exact on -1, 0 and +1. -/
theorem negInt_of_ternary (v : Int) (h : v = -1 ∨ v = 0 ∨ v = 1) : negInt v = -v :=
  negInt_of_inRange v (by omega) (by omega)

/-- Reversing an order comparison gives an order comparison. -/
theorem CompareDescending_orderCmp (cmp : ValueFunc) (h : orderCmp cmp) :
    orderCmp (CompareDescending cmp) := by
  obtain ⟨ht, ha, htr⟩ := h
  have e : ∀ a b, CompareDescending cmp a b = -cmp a b :=
    fun a b => negInt_of_ternary _ (ht a b)
  refine ⟨?_, ?_, ?_⟩
  · intro a b
    rw [e]
    have := ht a b
    omega
  · intro a b
    rw [e, e, ha a b]
  · intro a b c h1 h2
    rw [e] at h1 h2 ⊢
    have h1' : cmp b a ≤ 0 := by rw [ha b a]; omega
    have h2' : cmp c b ≤ 0 := by rw [ha c b]; omega
    have := htr c b a h2' h1'
    rw [ha a c]
    omega

/-- Placing nulls first keeps an order comparison. -/
theorem CompareNullsFirst_orderCmp (cmp : ValueFunc) (h : orderCmp cmp) :
    orderCmp (CompareNullsFirst cmp) := by
  obtain ⟨ht, ha, htr⟩ := h
  refine ⟨?_, ?_, ?_⟩
  · intro a b
    unfold CompareNullsFirst
    split_ifs <;> first | exact ht a b | simp
  · intro a b
    unfold CompareNullsFirst
    split_ifs <;> first | exact ha a b | simp
  · intro a b c
    unfold CompareNullsFirst
    cases a.IsNull <;> cases b.IsNull <;> cases c.IsNull <;> simp
    exact htr a b c

/-- Placing nulls last keeps an order comparison. -/
theorem CompareNullsLast_orderCmp (cmp : ValueFunc) (h : orderCmp cmp) :
    orderCmp (CompareNullsLast cmp) := by
  obtain ⟨ht, ha, htr⟩ := h
  refine ⟨?_, ?_, ?_⟩
  · intro a b
    unfold CompareNullsLast
    split_ifs <;> first | exact ht a b | simp
  · intro a b
    unfold CompareNullsLast
    split_ifs <;> first | exact ha a b | simp
  · intro a b c
    unfold CompareNullsLast
    cases a.IsNull <;> cases b.IsNull <;> cases c.IsNull <;> simp
    exact htr a b c

/-- The wrapped value comparator of a leaf has results in {-1, 0, +1} when the comparator of
the leaf type has. -/
theorem valueFuncOf_ternary (leaf : leafColumn) (s : SortingColumn)
    (h : ternaryCmp leaf.typ.Compare) : ternaryCmp (valueFuncOf leaf s) := by
  have hd : ternaryCmp (CompareDescending leaf.typ.Compare) := by
    intro a b
    have e : CompareDescending leaf.typ.Compare a b = -leaf.typ.Compare a b :=
      negInt_of_ternary _ (h a b)
    rw [e]
    have := h a b
    omega
  have hnf : ∀ cmp : ValueFunc, ternaryCmp cmp → ternaryCmp (CompareNullsFirst cmp) := by
    intro cmp hc a b
    unfold CompareNullsFirst
    split_ifs <;> first | exact hc a b | simp
  have hnl : ∀ cmp : ValueFunc, ternaryCmp cmp → ternaryCmp (CompareNullsLast cmp) := by
    intro cmp hc a b
    unfold CompareNullsLast
    split_ifs <;> first | exact hc a b | simp
  unfold valueFuncOf
  simp only []
  split_ifs <;>
    first | exact hnf _ hd | exact hnl _ hd | exact hd | exact hnf _ h | exact hnl _ h | exact h

/-- The wrapped value comparator of a leaf is antisymmetric when the comparator of the leaf
type is antisymmetric with results in {-1, 0, +1}. -/
theorem valueFuncOf_antisymmetric (leaf : leafColumn) (s : SortingColumn)
    (ht : ternaryCmp leaf.typ.Compare) (ha : antisymmetricCmp leaf.typ.Compare) :
    antisymmetricCmp (valueFuncOf leaf s) := by
  have hd : antisymmetricCmp (CompareDescending leaf.typ.Compare) := by
    intro a b
    have e : ∀ x y, CompareDescending leaf.typ.Compare x y = -leaf.typ.Compare x y :=
      fun x y => negInt_of_ternary _ (ht x y)
    rw [e, e, ha a b]
  have hnf : ∀ cmp : ValueFunc, antisymmetricCmp cmp →
      antisymmetricCmp (CompareNullsFirst cmp) := by
    intro cmp hc a b
    unfold CompareNullsFirst
    split_ifs <;> first | exact hc a b | simp
  have hnl : ∀ cmp : ValueFunc, antisymmetricCmp cmp →
      antisymmetricCmp (CompareNullsLast cmp) := by
    intro cmp hc a b
    unfold CompareNullsLast
    split_ifs <;> first | exact hc a b | simp
  unfold valueFuncOf
  simp only []
  split_ifs <;>
    first | exact hnf _ hd | exact hnl _ hd | exact hd | exact hnf _ ha | exact hnl _ ha | exact ha

/-! ### Order properties of the lexicographic comparison -/

/-- The lexicographic comparison has results in {-1, 0, +1} when the value comparator has. -/
theorem lexCompare_ternary (cmp : ValueFunc) (h : ternaryCmp cmp) :
    ∀ xs ys : List Value, lexCompare cmp xs ys = -1 ∨ lexCompare cmp xs ys = 0 ∨
      lexCompare cmp xs ys = 1 := by
  intro xs
  induction xs with
  | nil => intro ys; cases ys <;> simp [lexCompare]
  | cons x xs ih =>
    intro ys
    cases ys with
    | nil => simp [lexCompare]
    | cons y ys =>
      unfold lexCompare
      split_ifs
      · exact h x y
      · exact ih ys

/-- The lexicographic comparison is antisymmetric when the value comparator is. -/
theorem lexCompare_antisymmetric (cmp : ValueFunc) (h : antisymmetricCmp cmp) :
    ∀ xs ys : List Value, lexCompare cmp xs ys = -lexCompare cmp ys xs := by
  intro xs
  induction xs with
  | nil => intro ys; cases ys <;> simp [lexCompare]
  | cons x xs ih =>
    intro ys
    cases ys with
    | nil => simp [lexCompare]
    | cons y ys =>
      unfold lexCompare
      have hxy := h x y
      by_cases h0 : cmp x y = 0
      · have h0' : cmp y x = 0 := by omega
        simp only [h0, h0', ne_eq, not_true_eq_false, if_false]
        exact ih ys
      · have h0' : cmp y x ≠ 0 := by omega
        simp only [h0, h0', ne_eq, not_false_eq_true, if_true]
        exact hxy

/-- With an antisymmetric and transitive comparison, "less" followed by "less or equal"
is "less", and so on. -/
theorem strict_of_antisymmetric_transitive {α : Type} (g : α → α → Int)
    (ha : antisymmetricCmp g) (ht : transitiveCmp g) (a b c : α) :
    (g a b < 0 → g b c ≤ 0 → g a c < 0) ∧ (g a b ≤ 0 → g b c < 0 → g a c < 0) ∧
      (g a b = 0 → g b c = 0 → g a c = 0) := by
  have hab := ha a b
  have hbc := ha b c
  have hac := ha a c
  refine ⟨?_, ?_, ?_⟩
  · intro h1 h2
    have h3 := ht a b c (by omega) h2
    by_contra hne
    have hca : g c a ≤ 0 := by rw [ha c a]; omega
    have := ht b c a h2 hca
    rw [ha b a] at this
    omega
  · intro h1 h2
    have h3 := ht a b c h1 (by omega)
    by_contra hne
    have hca : g c a ≤ 0 := by rw [ha c a]; omega
    have := ht c a b hca h1
    rw [ha c b] at this
    omega
  · intro h1 h2
    have h3 := ht a b c (by omega) (by omega)
    have hcb : g c b ≤ 0 := by rw [ha c b]; omega
    have hba : g b a ≤ 0 := by rw [ha b a]; omega
    have := ht c b a hcb hba
    rw [ha c a] at this
    omega

/-- The lexicographic comparison is transitive when the value comparator is antisymmetric and
transitive. -/
theorem lexCompare_transitive (cmp : ValueFunc) (ha : antisymmetricCmp cmp)
    (ht : transitiveCmp cmp) :
    ∀ xs ys zs : List Value, lexCompare cmp xs ys ≤ 0 → lexCompare cmp ys zs ≤ 0 →
      lexCompare cmp xs zs ≤ 0 := by
  intro xs
  induction xs with
  | nil => intro ys zs _ _; cases zs <;> simp [lexCompare]
  | cons x xs ih =>
    intro ys zs h1 h2
    cases ys with
    | nil => simp [lexCompare] at h1
    | cons y ys =>
      cases zs with
      | nil => simp [lexCompare] at h2
      | cons z zs =>
        obtain ⟨s1, s2, s3⟩ := strict_of_antisymmetric_transitive cmp ha ht x y z
        unfold lexCompare at h1 h2 ⊢
        by_cases hxy : cmp x y = 0
        · by_cases hyz : cmp y z = 0
          · simp only [hxy, hyz, s3 hxy hyz, ne_eq, not_true_eq_false, if_false] at h1 h2 ⊢
            exact ih ys zs h1 h2
          · simp only [hyz, ne_eq, not_false_eq_true, if_true] at h2
            have := s2 (by omega) (by omega)
            have hne : cmp x z ≠ 0 := by omega
            simp only [hne, ne_eq, not_false_eq_true, if_true]
            omega
        · simp only [hxy, ne_eq, not_false_eq_true, if_true] at h1
          have hyz : cmp y z ≤ 0 := by
            by_cases hyz0 : cmp y z = 0
            · omega
            · simpa [hyz0] using h2
          have := s1 (by omega) hyz
          have hne : cmp x z ≠ 0 := by omega
          simp only [hne, ne_eq, not_false_eq_true, if_true]
          omega

/-! ### Properties of every comparator of the synthesis -/

/-- A property that holds for the comparator built at every leaf for every sorting column
holds for every comparator left in `compareFuncs` after the traversal. -/
theorem traverseSchema_forall (schema : Schema) (sortingColumns : List SortingColumn)
    (P : RowFunc → Prop)
    (hP : ∀ (pre post : List leafColumn) (leaf : leafColumn) (s : SortingColumn),
      schema = pre ++ leaf :: post → s ∈ sortingColumns →
      P (sortFuncOf (noneRepeated (pre ++ [leaf])) leaf s)) :
    ∀ f ∈ (traverseSchema schema sortingColumns).compareFuncs.filterMap id, P f := by
  intro f hf
  obtain ⟨a, ha, hid⟩ := List.mem_filterMap.mp hf
  have hmem : some f ∈ (traverseSchema schema sortingColumns).compareFuncs := by
    simp only [id_eq] at hid
    rw [← hid]
    exact ha
  refine foldl_visitLeaf_forall sortingColumns P schema [] _ rfl ?_ ?_ f hmem
  · intro g hg
    have := (List.mem_replicate.mp hg).2
    exact absurd this (by simp)
  · intro pre post leaf s hsplit hs
    exact hP pre post leaf s (by simpa using hsplit) hs

/-- A result of the ascending positional comparator is the result of the type comparator on
the two values at the column index. -/
theorem compareRowsFuncOfIndexAscending_value (c : Int) (typ : Typ) (r1 r2 : Row) (v : Int)
    (h : compareRowsFuncOfIndexAscending c typ r1 r2 = .value v) :
    ∃ x y, r1.index c = some x ∧ r2.index c = some y ∧ v = typ.Compare x y := by
  unfold compareRowsFuncOfIndexAscending at h
  cases h1 : r1.index c with
  | none => simp [h1] at h
  | some x =>
    cases h2 : r2.index c with
    | none => simp [h1, h2] at h
    | some y =>
      simp only [h1, h2, Outcome.value.injEq] at h
      exact ⟨x, y, rfl, rfl, h.symm⟩

/-- A result of the descending positional comparator is the Go negation of the result of the
type comparator on the two values at the column index. -/
theorem compareRowsFuncOfIndexDescending_value (c : Int) (typ : Typ) (r1 r2 : Row) (v : Int)
    (h : compareRowsFuncOfIndexDescending c typ r1 r2 = .value v) :
    ∃ x y, r1.index c = some x ∧ r2.index c = some y ∧ v = negInt (typ.Compare x y) := by
  unfold compareRowsFuncOfIndexDescending at h
  cases h1 : r1.index c with
  | none => simp [h1] at h
  | some x =>
    cases h2 : r2.index c with
    | none => simp [h1, h2] at h
    | some y =>
      simp only [h1, h2, Outcome.value.injEq] at h
      exact ⟨x, y, rfl, rfl, h.symm⟩

/-- The comparator of a leaf is on the fast path or on the general path. -/
theorem sortFuncOf_cases (direct : Bool) (leaf : leafColumn) (s : SortingColumn) :
    sortFuncOf direct leaf s = compareRowsFuncOfScan leaf.columnIndex (valueFuncOf leaf s) ∨
      sortFuncOf direct leaf s = compareRowsFuncOfIndexDescending leaf.columnIndex leaf.typ ∨
      sortFuncOf direct leaf s = compareRowsFuncOfIndexAscending leaf.columnIndex leaf.typ := by
  by_cases hgen : direct = false ∨ leaf.maxDefinitionLevel > 0
  · exact Or.inl (sortFuncOf_of_general _ _ _ hgen)
  · have hdir : direct = true := by
      cases direct
      · exact absurd (Or.inl rfl) hgen
      · rfl
    have hreq : leaf.maxDefinitionLevel = 0 := by
      by_contra hne
      exact hgen (Or.inr (Nat.pos_of_ne_zero hne))
    rw [hdir, sortFuncOf_of_direct leaf s hreq]
    by_cases hd : s.Descending = true
    · rw [if_pos hd]; exact Or.inr (Or.inl rfl)
    · rw [if_neg hd]; exact Or.inr (Or.inr rfl)

/-- The comparator of a leaf returns -1, 0 or +1 when the comparator of the leaf type does. -/
theorem sortFuncOf_ternary (direct : Bool) (leaf : leafColumn) (s : SortingColumn)
    (h : ternaryCmp leaf.typ.Compare) (r1 r2 : Row) (v : Int)
    (hv : sortFuncOf direct leaf s r1 r2 = .value v) : v = -1 ∨ v = 0 ∨ v = 1 := by
  rcases sortFuncOf_cases direct leaf s with e | e | e
  · rw [e, compareRowsFuncOfScan_eq_lexCompare] at hv
    cases hv
    exact lexCompare_ternary _ (valueFuncOf_ternary leaf s h) _ _
  · rw [e] at hv
    obtain ⟨x, y, _, _, rfl⟩ := compareRowsFuncOfIndexDescending_value _ _ _ _ _ hv
    rw [negInt_of_ternary _ (h x y)]
    have := h x y
    omega
  · rw [e] at hv
    obtain ⟨x, y, _, _, rfl⟩ := compareRowsFuncOfIndexAscending_value _ _ _ _ _ hv
    exact h x y

/-- The comparator of a leaf is antisymmetric when the comparator of the leaf type is
antisymmetric with results in {-1, 0, +1}. -/
theorem sortFuncOf_antisymmetric (direct : Bool) (leaf : leafColumn) (s : SortingColumn)
    (ht : ternaryCmp leaf.typ.Compare) (ha : antisymmetricCmp leaf.typ.Compare)
    (r1 r2 : Row) (v : Int) (hv : sortFuncOf direct leaf s r1 r2 = .value v) :
    sortFuncOf direct leaf s r2 r1 = .value (-v) := by
  rcases sortFuncOf_cases direct leaf s with e | e | e
  · rw [e, compareRowsFuncOfScan_eq_lexCompare] at hv ⊢
    cases hv
    rw [lexCompare_antisymmetric _ (valueFuncOf_antisymmetric leaf s ht ha)
      (valuesOf _ r1) (valuesOf _ r2)]
    simp
  · rw [e] at hv ⊢
    obtain ⟨x, y, h1, h2, rfl⟩ := compareRowsFuncOfIndexDescending_value _ _ _ _ _ hv
    unfold compareRowsFuncOfIndexDescending
    rw [h1, h2]
    show Outcome.value (negInt (leaf.typ.Compare y x)) = _
    rw [negInt_of_ternary _ (ht x y), negInt_of_ternary _ (ht y x), ha y x]
  · rw [e] at hv ⊢
    obtain ⟨x, y, h1, h2, rfl⟩ := compareRowsFuncOfIndexAscending_value _ _ _ _ _ hv
    unfold compareRowsFuncOfIndexAscending
    rw [h1, h2]
    show Outcome.value (leaf.typ.Compare y x) = _
    rw [ha y x]

/-- The composition of comparators with results in {-1, 0, +1} has results there. -/
theorem firstNonZero_ternary (fs : List RowFunc) (r1 r2 : Row)
    (h : ∀ f ∈ fs, ∀ v, f r1 r2 = .value v → v = -1 ∨ v = 0 ∨ v = 1) (v : Int)
    (hv : firstNonZero (fs.map (fun f => f r1 r2)) = .value v) : v = -1 ∨ v = 0 ∨ v = 1 := by
  induction fs with
  | nil =>
    simp only [List.map_nil, firstNonZero, Outcome.value.injEq] at hv
    omega
  | cons f fs ih =>
    simp only [List.map_cons, firstNonZero] at hv
    by_cases h0 : f r1 r2 = .value 0
    · rw [if_pos h0] at hv
      exact ih (fun g hg => h g (List.mem_cons_of_mem _ hg)) hv
    · rw [if_neg h0] at hv
      exact h f (List.mem_cons_self _ _) v hv

/-- The composition of antisymmetric comparators is antisymmetric. -/
theorem firstNonZero_antisymmetric (fs : List RowFunc) (r1 r2 : Row)
    (h : ∀ f ∈ fs, ∀ v, f r1 r2 = .value v → f r2 r1 = .value (-v)) (v : Int)
    (hv : firstNonZero (fs.map (fun f => f r1 r2)) = .value v) :
    firstNonZero (fs.map (fun f => f r2 r1)) = .value (-v) := by
  induction fs with
  | nil =>
    simp only [List.map_nil, firstNonZero, Outcome.value.injEq] at hv ⊢
    omega
  | cons f fs ih =>
    simp only [List.map_cons, firstNonZero] at hv ⊢
    by_cases h0 : f r1 r2 = .value 0
    · rw [if_pos h0] at hv
      have := h f (List.mem_cons_self _ _) 0 h0
      rw [if_pos (by simpa using this)]
      exact ih (fun g hg => h g (List.mem_cons_of_mem _ hg)) hv
    · rw [if_neg h0] at hv
      have hf := h f (List.mem_cons_self _ _) v hv
      have hv0 : v ≠ 0 := by
        intro hz
        rw [hz] at hv
        exact h0 hv
      rw [hf, if_neg (by simp; omega)]

/-- The comparator of the example type is an order comparison. -/
theorem int64Type_orderCmp : orderCmp int64Type.Compare := by
  refine ⟨?_, ?_, ?_⟩
  · intro a b
    show compareInt64 _ _ = -1 ∨ compareInt64 _ _ = 0 ∨ compareInt64 _ _ = 1
    unfold compareInt64
    split_ifs <;> simp
  · intro a b
    show compareInt64 _ _ = -compareInt64 _ _
    unfold compareInt64
    split_ifs <;> omega
  · intro a b c
    show compareInt64 _ _ ≤ 0 → compareInt64 _ _ ≤ 0 → compareInt64 _ _ ≤ 0
    unfold compareInt64
    split_ifs <;> omega

/-- Every leaf of the example schema has the example type. -/
theorem idTagSchema_typ (leaf : leafColumn) (h : leaf ∈ idTagSchema) : leaf.typ = int64Type := by
  simp only [idTagSchema, List.mem_cons, List.mem_singleton, List.not_mem_nil, or_false] at h
  rcases h with rfl | rfl <;> rfl

/-- Reversing keeps results in {-1, 0, +1}. -/
theorem CompareDescending_ternary (cmp : ValueFunc) (h : ternaryCmp cmp) :
    ternaryCmp (CompareDescending cmp) := by
  intro a b
  have e : CompareDescending cmp a b = -cmp a b := negInt_of_ternary _ (h a b)
  rw [e]
  have := h a b
  omega

/-- Placing nulls first keeps results in {-1, 0, +1}. -/
theorem CompareNullsFirst_ternary (cmp : ValueFunc) (h : ternaryCmp cmp) :
    ternaryCmp (CompareNullsFirst cmp) := by
  intro a b
  unfold CompareNullsFirst
  split_ifs <;> first | exact h a b | simp

/-- Placing nulls last keeps results in {-1, 0, +1}. -/
theorem CompareNullsLast_ternary (cmp : ValueFunc) (h : ternaryCmp cmp) :
    ternaryCmp (CompareNullsLast cmp) := by
  intro a b
  unfold CompareNullsLast
  split_ifs <;> first | exact h a b | simp

/-- The composition of scanning comparators over order comparisons on values: "less or equal"
on `(r1, r2)` and on `(r2, r3)` gives "less or equal" on `(r1, r3)`. -/
theorem firstNonZero_scan_transitive (keys : List (Int × ValueFunc))
    (h : ∀ k ∈ keys, orderCmp k.2) (r1 r2 r3 : Row) (a b : Int)
    (h12 : firstNonZero (keys.map (fun k => compareRowsFuncOfScan k.1 k.2 r1 r2)) = .value a)
    (ha : a ≤ 0)
    (h23 : firstNonZero (keys.map (fun k => compareRowsFuncOfScan k.1 k.2 r2 r3)) = .value b)
    (hb : b ≤ 0) :
    ∃ d, firstNonZero (keys.map (fun k => compareRowsFuncOfScan k.1 k.2 r1 r3)) = .value d ∧
      d ≤ 0 := by
  induction keys with
  | nil => exact ⟨0, rfl, le_refl 0⟩
  | cons k ks ih =>
    obtain ⟨_, hanti, htrans⟩ := h k (List.mem_cons_self _ _)
    have hrow_anti : antisymmetricCmp
        (fun r r' : Row => lexCompare k.2 (valuesOf k.1 r) (valuesOf k.1 r')) :=
      fun r r' => lexCompare_antisymmetric k.2 hanti _ _
    have hrow_trans : transitiveCmp
        (fun r r' : Row => lexCompare k.2 (valuesOf k.1 r) (valuesOf k.1 r')) :=
      fun r r' r'' => lexCompare_transitive k.2 hanti htrans _ _ _
    obtain ⟨s1, s2, s3⟩ := strict_of_antisymmetric_transitive _ hrow_anti hrow_trans r1 r2 r3
    simp only [List.map_cons, firstNonZero, compareRowsFuncOfScan_eq_lexCompare,
      Outcome.value.injEq] at h12 h23 ⊢
    simp only [compareRowsFuncOfScan_eq_lexCompare] at ih
    by_cases x0 : lexCompare k.2 (valuesOf k.1 r1) (valuesOf k.1 r2) = 0
    · by_cases y0 : lexCompare k.2 (valuesOf k.1 r2) (valuesOf k.1 r3) = 0
      · rw [if_pos x0] at h12
        rw [if_pos y0] at h23
        rw [if_pos (s3 x0 y0)]
        exact ih (fun k' hk' => h k' (List.mem_cons_of_mem _ hk')) h12 h23
      · rw [if_neg y0] at h23
        have hy := Outcome.value.inj h23
        have hz := s2 (by omega) (by omega)
        rw [if_neg (by omega)]
        exact ⟨_, rfl, by omega⟩
    · rw [if_neg x0] at h12
      have hx := Outcome.value.inj h12
      have hy : lexCompare k.2 (valuesOf k.1 r2) (valuesOf k.1 r3) ≤ 0 := by
        by_cases y0 : lexCompare k.2 (valuesOf k.1 r2) (valuesOf k.1 r3) = 0
        · omega
        · rw [if_neg y0] at h23
          have := Outcome.value.inj h23
          omega
      have hz := s1 (by omega) hy
      rw [if_neg (by omega)]
      exact ⟨_, rfl, by omega⟩

/-- With a single sorting column, the synthesized comparator is the comparator in the only
slot of `compareFuncs`. -/
theorem compareRowsFuncOf_single (schema : Schema) (s : SortingColumn) (f : RowFunc)
    (h : (traverseSchema schema [s]).compareFuncs[0]? = some (some f)) (r1 r2 : Row) :
    compareRowsFuncOf schema [s] r1 r2 = f r1 r2 := by
  have hlen := traverseSchema_length schema [s]
  rw [compareRowsFuncOf_eq_firstNonZero]
  generalize (traverseSchema schema [s]).compareFuncs = fs at h hlen
  match fs, hlen, h with
  | [x], _, h =>
    simp only [List.getElem?_cons_zero, Option.some.injEq] at h
    subst h
    simp only [List.filterMap_cons, id_eq, List.filterMap_nil, List.map_cons, List.map_nil]
    exact firstNonZero_singleton _

/-- The comparator synthesized for a single sorting column is the one built at the last leaf
that has its path. -/
theorem compareRowsFuncOf_single_of_last (pre post : List leafColumn) (leaf : leafColumn)
    (s : SortingColumn) (hpath : leaf.path = s.Path) (hpost : ∀ l ∈ post, l.path ≠ s.Path)
    (r1 r2 : Row) :
    compareRowsFuncOf (pre ++ leaf :: post) [s] r1 r2 =
      sortFuncOf (noneRepeated (pre ++ [leaf])) leaf s r1 r2 := by
  apply compareRowsFuncOf_single
  have h0 : searchSortingColumn [s] leaf.path = 0 := by
    simp [searchSortingColumn, List.findIdx_cons, hpath]
  have hp : ∀ l ∈ post, searchSortingColumn [s] l.path ≠ 0 := by
    intro l hl
    simp [searchSortingColumn, List.findIdx_cons, hpost l hl]
  exact traverseSchema_getElem?_of_last [s] pre post leaf 0 h0 (by simp) hp

/-! ### The logged scanning loop -/

/-- The logged inner loop stops where the inner loop stops. -/
theorem skipToColumnLog_fst (row : Row) (tag : Int) :
    ∀ fuel i : Nat, (skipToColumnLog row tag fuel i).1 = skipToColumn row tag fuel i := by
  intro fuel
  induction fuel with
  | zero => intro i; rfl
  | succ fuel ih =>
    intro i
    unfold skipToColumnLog skipToColumn
    by_cases h : i < row.length
    · by_cases ht : row[i].columnIndex = tag
      · simp [h, ht]
      · simp [h, ht, ih]
    · simp [h]

/-- The inner loop reads the row inside its bounds only. -/
theorem skipToColumnLog_reads (row : Row) (tag : Int) :
    ∀ fuel i : Nat, ∀ j ∈ (skipToColumnLog row tag fuel i).2, j < row.length := by
  intro fuel
  induction fuel with
  | zero => intro i j hj; simp [skipToColumnLog] at hj
  | succ fuel ih =>
    intro i j hj
    unfold skipToColumnLog at hj
    by_cases h : i < row.length
    · by_cases ht : row[i].columnIndex = tag
      · simp only [h, ht, dite_true, ne_eq, not_true_eq_false, if_false,
          List.mem_singleton] at hj
        omega
      · simp only [h, ht, dite_true, ne_eq, not_false_eq_true, if_true, List.mem_cons] at hj
        rcases hj with rfl | hj
        · exact h
        · exact ih (i + 1) j hj
    · simp [h] at hj

/-- The logged loop has the outcome of the loop, for every budget. -/
theorem logLoop_outcome (cmp : ValueFunc) (tag : Int) (row1 row2 : Row) :
    ∀ fuel i1 i2 : Nat,
      (compareRowsFuncOfScan.logLoop cmp tag row1 row2 fuel i1 i2).outcome =
        compareRowsFuncOfScan.loop cmp tag row1 row2 fuel i1 i2 := by
  intro fuel
  induction fuel with
  | zero => intro i1 i2; rfl
  | succ fuel ih =>
    intro i1 i2
    unfold compareRowsFuncOfScan.logLoop compareRowsFuncOfScan.loop
    simp only [skipToColumnLog_fst]
    generalize skipToColumn row1 tag (row1.length - i1) i1 = j1
    generalize skipToColumn row2 tag (row2.length - i2) i2 = j2
    by_cases e1 : j1 = row1.length
    · by_cases e2 : j2 = row2.length
      · simp [e1, e2]
      · simp [e1, e2]
    · by_cases e2 : j2 = row2.length
      · simp [e1, e2]
      · simp only [e1, e2, decide_False, Bool.and_self, Bool.false_eq_true, if_false]
        cases h1 : row1[j1]? with
        | none => simp
        | some a =>
          cases h2 : row2[j2]? with
          | none => simp
          | some b =>
            simp only []
            by_cases hc : cmp a b = 0
            · simp [hc, ih]
            · simp [hc]

/-- Started inside the rows, the logged loop starts at most
`min(len(row1) - i1, len(row2) - i2) + 1` iterations and reads both rows inside their bounds
only, whatever its budget. -/
theorem logLoop_bounds (cmp : ValueFunc) (tag : Int) (row1 row2 : Row) :
    ∀ fuel i1 i2 : Nat, i1 ≤ row1.length → i2 ≤ row2.length →
      (compareRowsFuncOfScan.logLoop cmp tag row1 row2 fuel i1 i2).iterations ≤
          min (row1.length - i1) (row2.length - i2) + 1 ∧
        (∀ j ∈ (compareRowsFuncOfScan.logLoop cmp tag row1 row2 fuel i1 i2).reads1,
          j < row1.length) ∧
        (∀ j ∈ (compareRowsFuncOfScan.logLoop cmp tag row1 row2 fuel i1 i2).reads2,
          j < row2.length) := by
  intro fuel
  induction fuel with
  | zero =>
    intro i1 i2 _ _
    simp [compareRowsFuncOfScan.logLoop]
  | succ fuel ih =>
    intro i1 i2 h1 h2
    obtain ⟨a1, a2, _, _⟩ := skipToColumn_spec row1 tag (row1.length - i1) i1 h1 le_rfl
    obtain ⟨b1, b2, _, _⟩ := skipToColumn_spec row2 tag (row2.length - i2) i2 h2 le_rfl
    have r1 := skipToColumnLog_reads row1 tag (row1.length - i1) i1
    have r2 := skipToColumnLog_reads row2 tag (row2.length - i2) i2
    rw [← skipToColumnLog_fst] at a1 a2 b1 b2
    unfold compareRowsFuncOfScan.logLoop
    generalize skipToColumnLog row1 tag (row1.length - i1) i1 = s1 at a1 a2 r1
    generalize skipToColumnLog row2 tag (row2.length - i2) i2 = s2 at b1 b2 r2
    by_cases e1 : s1.1 = row1.length
    · by_cases e2 : s2.1 = row2.length
      · simp only [e1, e2, decide_True, Bool.and_self, if_true]
        exact ⟨by omega, r1, r2⟩
      · simp only [e1, e2, decide_True, decide_False, Bool.and_false, Bool.false_eq_true,
          if_false, if_true]
        exact ⟨by omega, r1, r2⟩
    · by_cases e2 : s2.1 = row2.length
      · simp only [e1, e2, decide_True, decide_False, Bool.false_and, Bool.false_eq_true,
          if_false, if_true]
        exact ⟨by omega, r1, r2⟩
      · have hlt1 : s1.1 < row1.length := by omega
        have hlt2 : s2.1 < row2.length := by omega
        simp only [e1, e2, decide_False, Bool.and_self, Bool.false_eq_true, if_false,
          List.getElem?_eq_getElem hlt1, List.getElem?_eq_getElem hlt2]
        by_cases hc : cmp row1[s1.1] row2[s2.1] = 0
        · obtain ⟨c1, c2, c3⟩ := ih (s1.1 + 1) (s2.1 + 1) (by omega) (by omega)
          simp only [hc, ne_eq, not_true_eq_false, if_false]
          refine ⟨by omega, ?_, ?_⟩
          · intro j hj
            rcases List.mem_append.mp hj with hj | hj
            · exact r1 j hj
            · rcases List.mem_cons.mp hj with rfl | hj
              · exact hlt1
              · exact c2 j hj
          · intro j hj
            rcases List.mem_append.mp hj with hj | hj
            · exact r2 j hj
            · rcases List.mem_cons.mp hj with rfl | hj
              · exact hlt2
              · exact c3 j hj
        · simp only [hc, ne_eq, not_false_eq_true, if_true]
          refine ⟨by omega, ?_, ?_⟩
          · intro j hj
            rcases List.mem_append.mp hj with hj | hj
            · exact r1 j hj
            · rw [List.mem_singleton.mp hj]; exact hlt1
          · intro j hj
            rcases List.mem_append.mp hj with hj | hj
            · exact r2 j hj
            · rw [List.mem_singleton.mp hj]; exact hlt2

/-! ## The claims -/

/-- C1. For every column index, value comparator and pair of rows, the scanning comparator
returns the lexicographic comparison of the two subsequences of values tagged with that column,
taken in row order; values of other columns have no influence, and the comparison always
yields a result. -/
theorem compareRowsFuncOfScan_lexicographic (c : Int) (cmp : ValueFunc) (r1 r2 : Row) :
    compareRowsFuncOfScan c cmp r1 r2 = .value (lexCompare cmp (valuesOf c r1) (valuesOf c r2)) :=
  compareRowsFuncOfScan_eq_lexCompare c cmp r1 r2

/-- C2. Repeated-column law: when the values of `r2` for column `c` are fewer than those of
`r1` and the comparator returns 0 at every shared position (in the argument order in which it
is called), the scanning comparator puts the shorter row first: -1 on `(r2, r1)` and +1 on
`(r1, r2)`. This holds for every value comparator, wrapped or not. -/
theorem compareRowsFuncOfScan_shorter_first (c : Int) (cmp : ValueFunc) (r1 r2 : Row)
    (hlen : (valuesOf c r2).length < (valuesOf c r1).length)
    (h21 : ∀ (k : Nat) (x y : Value),
      (valuesOf c r2)[k]? = some y → (valuesOf c r1)[k]? = some x → cmp y x = 0)
    (h12 : ∀ (k : Nat) (x y : Value),
      (valuesOf c r1)[k]? = some x → (valuesOf c r2)[k]? = some y → cmp x y = 0) :
    compareRowsFuncOfScan c cmp r2 r1 = .value (-1) ∧
      compareRowsFuncOfScan c cmp r1 r2 = .value 1 := by
  rw [compareRowsFuncOfScan_eq_lexCompare, compareRowsFuncOfScan_eq_lexCompare,
    lexCompare_of_shorter cmp _ _ hlen (fun k y x hy hx => h21 k x y hy hx),
    lexCompare_of_longer cmp _ _ hlen h12]
  exact ⟨rfl, rfl⟩

/-- C2, an instance: column 1 holds `4, 2` in one row and `4` in the other, under a
descending, nulls-first comparator. -/
theorem compareRowsFuncOfScan_shorter_first_witness :
    (valuesOf 1 [int64Value 0 7, int64Value 1 4]).length <
        (valuesOf 1 [int64Value 0 9, int64Value 1 4, int64Value 1 2]).length ∧
      compareRowsFuncOfScan 1 (CompareNullsFirst (CompareDescending int64Type.Compare))
        [int64Value 0 7, int64Value 1 4] [int64Value 0 9, int64Value 1 4, int64Value 1 2]
          = .value (-1) ∧
      compareRowsFuncOfScan 1 (CompareNullsFirst (CompareDescending int64Type.Compare))
        [int64Value 0 9, int64Value 1 4, int64Value 1 2] [int64Value 0 7, int64Value 1 4]
          = .value 1 :=
  ⟨by decide,
    compareRowsFuncOfScan_shorter_first 1 (CompareNullsFirst (CompareDescending int64Type.Compare))
      [int64Value 0 9, int64Value 1 4, int64Value 1 2] [int64Value 0 7, int64Value 1 4]
      (by decide)
      (by
        intro k x y hy hx
        have e1 : valuesOf 1 [int64Value 0 9, int64Value 1 4, int64Value 1 2] =
            [int64Value 1 4, int64Value 1 2] := by decide
        have e2 : valuesOf 1 [int64Value 0 7, int64Value 1 4] = [int64Value 1 4] := by decide
        rw [e1] at hx
        rw [e2] at hy
        match k with
        | 0 =>
          cases Option.some.inj hy
          cases Option.some.inj hx
          decide
        | k + 1 => simp at hy)
      (by
        intro k x y hx hy
        have e1 : valuesOf 1 [int64Value 0 9, int64Value 1 4, int64Value 1 2] =
            [int64Value 1 4, int64Value 1 2] := by decide
        have e2 : valuesOf 1 [int64Value 0 7, int64Value 1 4] = [int64Value 1 4] := by decide
        rw [e1] at hx
        rw [e2] at hy
        match k with
        | 0 =>
          cases Option.some.inj hy
          cases Option.some.inj hx
          decide
        | k + 1 => simp at hy)⟩

/-- C3. Unmatched sort columns are dropped: when `u` names no leaf of the schema and `v` names
one, the comparators synthesized for `[v, u]` and for `[u, v]` return on every pair of rows
what the comparator synthesized for `[v]` returns. -/
theorem compareRowsFuncOf_drops_unmatched (schema : Schema) (v u : SortingColumn) (r1 r2 : Row)
    (_hv : ∃ leaf ∈ schema, leaf.path = v.Path)
    (hu : ∀ leaf ∈ schema, leaf.path ≠ u.Path) :
    compareRowsFuncOf schema [v, u] r1 r2 = compareRowsFuncOf schema [v] r1 r2 ∧
      compareRowsFuncOf schema [u, v] r1 r2 = compareRowsFuncOf schema [v] r1 r2 := by
  obtain ⟨y, d', h1, h2, h3⟩ := traverse_with_unmatched v u schema hu none true
  have t1 : traverseSchema schema [v] = { compareFuncs := [y], direct := d' } := h1
  have t2 : traverseSchema schema [v, u] = { compareFuncs := [y, none], direct := d' } := h2
  have t3 : traverseSchema schema [u, v] = { compareFuncs := [none, y], direct := d' } := h3
  rw [compareRowsFuncOf_eq_firstNonZero, compareRowsFuncOf_eq_firstNonZero,
    compareRowsFuncOf_eq_firstNonZero, t1, t2, t3]
  cases y <;> exact ⟨rfl, rfl⟩

/-- C3, an instance: `tag` names a leaf, `missing` names none. -/
theorem compareRowsFuncOf_drops_unmatched_witness :
    compareRowsFuncOf idTagSchema [descending ["tag"], ascending ["missing"]]
        [int64Value 0 1, int64Value 1 4, int64Value 1 2] [int64Value 0 1, int64Value 1 4] =
      compareRowsFuncOf idTagSchema [descending ["tag"]]
        [int64Value 0 1, int64Value 1 4, int64Value 1 2] [int64Value 0 1, int64Value 1 4] ∧
    compareRowsFuncOf idTagSchema [ascending ["missing"], descending ["tag"]]
        [int64Value 0 1, int64Value 1 4, int64Value 1 2] [int64Value 0 1, int64Value 1 4] =
      compareRowsFuncOf idTagSchema [descending ["tag"]]
        [int64Value 0 1, int64Value 1 4, int64Value 1 2] [int64Value 0 1, int64Value 1 4] :=
  compareRowsFuncOf_drops_unmatched idTagSchema (descending ["tag"]) (ascending ["missing"])
    [int64Value 0 1, int64Value 1 4, int64Value 1 2] [int64Value 0 1, int64Value 1 4]
    (by decide) (by decide)

/-- C4. Key precedence follows the order of the sort specification. With distinct paths in the
schema and in the sort specification, the comparator returned by `compareRowsFuncOf` is the
lexicographic composition, in the order of the sort specification, of the per-column
comparators of the entries that name a leaf, wherever those leaves stand in the schema: the
entries that name no leaf are removed and the others keep their relative order. When every
entry names a leaf, all entries take part. -/
theorem compareRowsFuncOf_key_order (schema : Schema) (sortingColumns : List SortingColumn)
    (r1 r2 : Row)
    (hs : (sortingColumns.map (fun s => s.Path)).Nodup)
    (hl : (schema.map (fun leaf => leaf.path)).Nodup) :
    compareRowsFuncOf schema sortingColumns r1 r2 =
        firstNonZero (((sortingColumns.filter (isMatched schema)).map (keyFuncOf schema)).map
          (fun f => f r1 r2)) ∧
      ((∀ s ∈ sortingColumns, ∃ leaf ∈ schema, leaf.path = s.Path) →
        compareRowsFuncOf schema sortingColumns r1 r2 =
          firstNonZero (sortingColumns.map (fun s => keyFuncOf schema s r1 r2))) := by
  have hgen : compareRowsFuncOf schema sortingColumns r1 r2 =
      firstNonZero (((sortingColumns.filter (isMatched schema)).map (keyFuncOf schema)).map
        (fun f => f r1 r2)) := by
    rw [compareRowsFuncOf_eq_firstNonZero,
      traverseSchema_compareFuncs_of_nodup schema sortingColumns hs hl, filterMap_matched]
  refine ⟨hgen, ?_⟩
  intro hall
  have hfilter : sortingColumns.filter (isMatched schema) = sortingColumns := by
    rw [List.filter_eq_self]
    intro s hsmem
    obtain ⟨leaf, hleaf, hp⟩ := hall s hsmem
    unfold isMatched
    rw [List.any_eq_true]
    exact ⟨leaf, hleaf, by simpa using hp⟩
  rw [hgen, hfilter, List.map_map]
  rfl

/-- C4, an instance: `tag` (second leaf) is the primary key and `id` (first leaf) the secondary
one; the rows differ on both and the result is that of `tag`. -/
theorem compareRowsFuncOf_key_order_witness :
    compareRowsFuncOf idTagSchema [descending ["tag"], ascending ["id"]]
        [int64Value 0 1, int64Value 1 3] [int64Value 0 2, int64Value 1 4] = .value 1 :=
  ((compareRowsFuncOf_key_order idTagSchema [descending ["tag"], ascending ["id"]]
    [int64Value 0 1, int64Value 1 3] [int64Value 0 2, int64Value 1 4]
    (by decide) (by decide)).2 (by decide)).trans (by decide)

/-- C5. Lexicographic composition: the comparator built by `compareRowsFuncOfColumns` from a
list of row comparators returns the outcome of the first one whose outcome is not the result
zero, returns zero exactly when all of them return zero, and for two keys returns the first
key's outcome when that is not zero and the second key's outcome otherwise. -/
theorem compareRowsFuncOfColumns_lexicographic (fs : List RowFunc) (r1 r2 : Row) :
    (∀ (pre post : List RowFunc) (f : RowFunc), fs = pre ++ f :: post →
        (∀ g ∈ pre, g r1 r2 = .value 0) → f r1 r2 ≠ .value 0 →
        compareRowsFuncOfColumns (fs.map some) r1 r2 = f r1 r2) ∧
      (compareRowsFuncOfColumns (fs.map some) r1 r2 = .value 0 ↔
        ∀ f ∈ fs, f r1 r2 = .value 0) ∧
      (∀ K1 K2 : RowFunc, compareRowsFuncOfColumns [some K1, some K2] r1 r2 =
        if K1 r1 r2 ≠ .value 0 then K1 r1 r2 else K2 r1 r2) := by
  refine ⟨?_, ?_, ?_⟩
  · intro pre post f hfs hpre hf
    subst hfs
    unfold compareRowsFuncOfColumns
    rw [columnsLoop_eq_firstNonZero, List.map_append,
      firstNonZero_append_of_zero _ _ (by simpa using hpre)]
    simp [firstNonZero, hf]
  · unfold compareRowsFuncOfColumns
    rw [columnsLoop_eq_firstNonZero, firstNonZero_eq_zero_iff]
    simp
  · intro K1 K2
    have := columnsLoop_eq_firstNonZero r1 r2 [K1, K2]
    unfold compareRowsFuncOfColumns
    simp only [List.map_cons, List.map_nil] at this
    rw [this]
    by_cases h1 : K1 r1 r2 = .value 0
    · simp [firstNonZero, h1]
      intro h; exact h.symm
    · simp [firstNonZero, h1]

/-- C5, an instance: three keys, the first ties, the second decides. -/
theorem compareRowsFuncOfColumns_lexicographic_witness :
    compareRowsFuncOfColumns
      ([compareRowsFuncOfScan 0 int64Type.Compare, compareRowsFuncOfScan 1 int64Type.Compare,
        compareRowsFuncOfScan 2 int64Type.Compare].map some)
      [int64Value 0 1, int64Value 1 5, int64Value 2 9]
      [int64Value 0 1, int64Value 1 3, int64Value 2 10] = .value 1 :=
  ((compareRowsFuncOfColumns_lexicographic
      [compareRowsFuncOfScan 0 int64Type.Compare, compareRowsFuncOfScan 1 int64Type.Compare,
        compareRowsFuncOfScan 2 int64Type.Compare]
      [int64Value 0 1, int64Value 1 5, int64Value 2 9]
      [int64Value 0 1, int64Value 1 3, int64Value 2 10]).1
    [compareRowsFuncOfScan 0 int64Type.Compare] [compareRowsFuncOfScan 2 int64Type.Compare]
    (compareRowsFuncOfScan 1 int64Type.Compare) rfl
    (by intro g hg; rw [List.mem_singleton.mp hg]; decide) (by decide)).trans (by decide)

/-- C6. Zero effective sort keys give the unordered comparator: when no entry of the sort
specification has the path of a schema leaf (in particular when the specification is empty),
the comparator returned by `compareRowsFuncOf` returns 0 on every pair of rows. -/
theorem compareRowsFuncOf_unmatched_unordered (schema : Schema)
    (sortingColumns : List SortingColumn) (r1 r2 : Row)
    (h : ∀ s ∈ sortingColumns, ∀ leaf ∈ schema, leaf.path ≠ s.Path) :
    compareRowsFuncOf schema sortingColumns r1 r2 = .value 0 := by
  rw [compareRowsFuncOf_eq_firstNonZero]
  have hfs : (traverseSchema schema sortingColumns).compareFuncs =
      List.replicate sortingColumns.length none := by
    unfold traverseSchema forEachLeafColumnOf
    rw [foldl_visitLeaf_of_unmatched]
    intro leaf hleaf hlt
    obtain ⟨s, hs, hp⟩ := (searchSortingColumn_lt_iff _ _).mp hlt
    exact h s hs leaf hleaf hp
  have hnil : (List.replicate sortingColumns.length (none : Option RowFunc)).filterMap id
      = [] := by
    rw [List.filterMap_eq_nil_iff]
    intro a ha
    rw [(List.mem_replicate.mp ha).2]
    rfl
  rw [hfs, hnil]
  rfl

/-- C6, an instance: a sort specification that names no leaf, and the empty one. -/
theorem compareRowsFuncOf_unmatched_unordered_witness :
    compareRowsFuncOf idTagSchema [ascending ["name"], descending ["tags"]]
        [int64Value 0 5, int64Value 1 2] [int64Value 0 3] = .value 0 ∧
      compareRowsFuncOf idTagSchema [] [int64Value 0 5, int64Value 1 2] [int64Value 0 3]
        = .value 0 :=
  ⟨compareRowsFuncOf_unmatched_unordered idTagSchema [ascending ["name"], descending ["tags"]]
      [int64Value 0 5, int64Value 1 2] [int64Value 0 3] (by decide),
    by decide⟩

/-- C7 (as amended). The synthesized comparator never fails at comparison time on rows in which
every non-repeated column, required or optional, contributes exactly one value: for every
schema with dense column indexes, every sort specification and every pair of such rows, the
comparator returned by `compareRowsFuncOf` indexes no row out of range and returns a result. -/
theorem compareRowsFuncOf_returns (schema : Schema) (sortingColumns : List SortingColumn)
    (r1 r2 : Row) (hd : denseColumnIndexes schema)
    (h1 : wellFormedRow schema r1) (h2 : wellFormedRow schema r2) :
    ∃ v, compareRowsFuncOf schema sortingColumns r1 r2 = .value v := by
  rw [compareRowsFuncOf_eq_firstNonZero]
  apply firstNonZero_of_values
  intro o ho
  obtain ⟨f, hf, rfl⟩ := List.mem_map.mp ho
  obtain ⟨a, ha, hid⟩ := List.mem_filterMap.mp hf
  have hmem : some f ∈ (traverseSchema schema sortingColumns).compareFuncs := by
    simp only [id_eq] at hid
    rw [← hid]
    exact ha
  refine foldl_visitLeaf_forall sortingColumns (fun g => ∃ v, g r1 r2 = .value v)
    schema [] _ rfl ?_ ?_ f hmem
  · intro g hg
    have := (List.mem_replicate.mp hg).2
    exact absurd this (by simp)
  · intro pre post leaf s hsplit _
    exact sortFuncOf_returns schema hd pre post leaf s (by simpa using hsplit) r1 r2 h1 h2

/-- C7 (as amended), an instance: the optional column `note` is null in one row. -/
theorem compareRowsFuncOf_returns_witness :
    ∃ v, compareRowsFuncOf noteIdSchema [ascending ["id"], descending ["note"]]
      [nullValue 0, int64Value 1 5] [int64Value 0 2, int64Value 1 5] = .value v :=
  compareRowsFuncOf_returns noteIdSchema [ascending ["id"], descending ["note"]]
    [nullValue 0, int64Value 1 5] [int64Value 0 2, int64Value 1 5]
    (by decide) (by decide) (by decide)

/-- C7 (counterexample). In the schema `note` (optional, column 0), `id` (required, column 1)
the row holding only the value of `id` is well formed in the words of the spec (the absent
optional column contributes no value), and the comparator synthesized for `[id]` indexes it
out of range. -/
theorem compareRowsFuncOf_returns_counterexample :
    specWellFormedRow noteIdSchema [int64Value 1 5] ∧
      compareRowsFuncOf noteIdSchema [ascending ["id"]] [int64Value 1 5] [int64Value 1 5]
        = .fault :=
  ⟨by decide, by decide⟩

/-- C8 (as amended). The comparator chosen for a matched leaf depends on the leaves visited up
to that leaf, not on the whole schema. For the last leaf matching entry `i`: when the leaf is
optional, or the leaf or a leaf visited before it is repeated, the slot of entry `i` holds the
scanning comparator bound to the leaf's column index; when the leaf is required and neither it
nor any leaf visited before it is repeated, the slot holds the positional comparator, whatever
leaves follow. -/
theorem compareRowsFuncOf_choice (sortingColumns : List SortingColumn)
    (pre post : List leafColumn) (leaf : leafColumn) (i : Nat)
    (h : searchSortingColumn sortingColumns leaf.path = i) (hi : i < sortingColumns.length)
    (hpost : ∀ l ∈ post, searchSortingColumn sortingColumns l.path ≠ i) :
    ((leaf.maxDefinitionLevel > 0 ∨ ∃ l ∈ pre ++ [leaf], l.maxRepetitionLevel > 0) →
        (traverseSchema (pre ++ leaf :: post) sortingColumns).compareFuncs[i]? =
          some (some (compareRowsFuncOfScan leaf.columnIndex
            (valueFuncOf leaf sortingColumns[i])))) ∧
      (leaf.maxDefinitionLevel = 0 → (∀ l ∈ pre ++ [leaf], l.maxRepetitionLevel = 0) →
        (traverseSchema (pre ++ leaf :: post) sortingColumns).compareFuncs[i]? =
          some (some (if sortingColumns[i].Descending
            then compareRowsFuncOfIndexDescending leaf.columnIndex leaf.typ
            else compareRowsFuncOfIndexAscending leaf.columnIndex leaf.typ))) := by
  have key := traverseSchema_getElem?_of_last sortingColumns pre post leaf i h hi hpost
  constructor
  · intro hgen
    rw [key, sortFuncOf_of_general]
    rcases hgen with hopt | hrep
    · exact Or.inr hopt
    · exact Or.inl ((noneRepeated_eq_false_iff _).mpr hrep)
  · intro hreq hnone
    have : (pre ++ [leaf]).all (fun l => decide (l.maxRepetitionLevel = 0)) = true :=
      (noneRepeated_eq_true_iff _).mpr hnone
    rw [key, this, sortFuncOf_of_direct leaf _ hreq]

/-- C8 (as amended), an instance: the required leaf `id` is visited after the repeated leaf
`tag` and gets the scanning comparator. -/
theorem compareRowsFuncOf_choice_witness :
    (traverseSchema ([int64Leaf ["tag"] 1 1 0] ++ int64Leaf ["id"] 0 0 1 :: [])
        [ascending ["id"]]).compareFuncs[0]? =
      some (some (compareRowsFuncOfScan (int64Leaf ["id"] 0 0 1).columnIndex
        (valueFuncOf (int64Leaf ["id"] 0 0 1) (ascending ["id"])))) :=
  (compareRowsFuncOf_choice [ascending ["id"]] [int64Leaf ["tag"] 1 1 0] []
    (int64Leaf ["id"] 0 0 1) 0 (by decide) (by decide) (by simp)).1
    (Or.inr ⟨int64Leaf ["tag"] 1 1 0, by simp, by decide⟩)

/-- C8 (counterexample). In the schema `id` (required, column 0), `tag` (repeated, column 1) a
leaf is repeated, yet the comparator synthesized for the sort specification `[id]` is the
positional comparator for column 0 and is no scanning comparator: on a pair of empty rows it
faults, where every scanning comparator returns 0. -/
theorem compareRowsFuncOf_choice_counterexample :
    (∃ leaf ∈ idTagSchema, leaf.maxRepetitionLevel > 0) ∧
      (∀ r1 r2 : Row, compareRowsFuncOf idTagSchema [ascending ["id"]] r1 r2 =
        compareRowsFuncOfIndexAscending 0 int64Type r1 r2) ∧
      ¬ ∃ cmp : ValueFunc, ∀ r1 r2 : Row,
        compareRowsFuncOf idTagSchema [ascending ["id"]] r1 r2 =
          compareRowsFuncOfScan 0 cmp r1 r2 := by
  refine ⟨by decide, fun r1 r2 => rfl, ?_⟩
  rintro ⟨cmp, hcmp⟩
  have h := hcmp [] []
  rw [compareRowsFuncOfScan_eq_lexCompare] at h
  have hl : compareRowsFuncOf idTagSchema [ascending ["id"]] [] [] = .fault := by decide
  rw [hl] at h
  exact Outcome.noConfusion h

/-- C9. Fast path and general path agree when both apply: on rows in which every position `i`
holds the value tagged with column `i`, and for a column index in range, the positional
comparators return what the scanning comparator returns for the same column, with
`typ.Compare` for the ascending one and `CompareDescending typ.Compare` for the descending
one. -/
theorem index_agrees_with_scan (c : Int) (typ : Typ) (r1 r2 : Row)
    (h1 : positionalRow r1) (h2 : positionalRow r2)
    (hc : 0 ≤ c) (hc1 : c < r1.length) (hc2 : c < r2.length) :
    compareRowsFuncOfIndexAscending c typ r1 r2 = compareRowsFuncOfScan c typ.Compare r1 r2 ∧
      compareRowsFuncOfIndexDescending c typ r1 r2 =
        compareRowsFuncOfScan c (CompareDescending typ.Compare) r1 r2 := by
  rw [compareRowsFuncOfScan_eq_lexCompare, compareRowsFuncOfScan_eq_lexCompare,
    valuesOf_positionalRow r1 h1 c hc, valuesOf_positionalRow r2 h2 c hc]
  unfold compareRowsFuncOfIndexAscending compareRowsFuncOfIndexDescending
  have b1 : c.toNat < r1.length := by omega
  have b2 : c.toNat < r2.length := by omega
  have e1 : r1.index c = some r1[c.toNat] := by
    unfold Row.index
    rw [if_pos hc, List.getElem?_eq_getElem]
  have e2 : r2.index c = some r2[c.toNat] := by
    unfold Row.index
    rw [if_pos hc, List.getElem?_eq_getElem]
  rw [e1, e2]
  simp only [Option.toList, lexCompare, CompareDescending]
  constructor
  · by_cases h : typ.Compare r1[c.toNat] r2[c.toNat] = 0
    · simp [h]
    · simp [h]
  · by_cases h : negInt (typ.Compare r1[c.toNat] r2[c.toNat]) = 0
    · simp [h]
    · simp [h]

/-- C9, an instance: three columns, compared on column 1. -/
theorem index_agrees_with_scan_witness :
    compareRowsFuncOfIndexAscending 1 int64Type [int64Value 0 7, int64Value 1 4, int64Value 2 0]
        [int64Value 0 7, int64Value 1 6, int64Value 2 0] =
      compareRowsFuncOfScan 1 int64Type.Compare [int64Value 0 7, int64Value 1 4, int64Value 2 0]
        [int64Value 0 7, int64Value 1 6, int64Value 2 0] ∧
    compareRowsFuncOfIndexDescending 1 int64Type [int64Value 0 7, int64Value 1 4, int64Value 2 0]
        [int64Value 0 7, int64Value 1 6, int64Value 2 0] =
      compareRowsFuncOfScan 1 (CompareDescending int64Type.Compare)
        [int64Value 0 7, int64Value 1 4, int64Value 2 0]
        [int64Value 0 7, int64Value 1 6, int64Value 2 0] :=
  index_agrees_with_scan 1 int64Type [int64Value 0 7, int64Value 1 4, int64Value 2 0]
    [int64Value 0 7, int64Value 1 6, int64Value 2 0] (by decide) (by decide) (by decide)
    (by decide) (by decide)

/-- C10. Null placement of the combinators: against a non-null value a null is smaller under
`CompareNullsFirst` and greater under `CompareNullsLast`; two nulls compare equal under both;
two non-null values are compared by the base comparator; and when either argument is null the
result does not depend on the base comparator. -/
theorem compareNulls_placement (cmp : ValueFunc) :
    (∀ n v : Value, n.IsNull = true → v.IsNull = false →
        CompareNullsFirst cmp n v < 0 ∧ CompareNullsFirst cmp v n > 0 ∧
        CompareNullsLast cmp n v > 0 ∧ CompareNullsLast cmp v n < 0) ∧
      (∀ n m : Value, n.IsNull = true → m.IsNull = true →
        CompareNullsFirst cmp n m = 0 ∧ CompareNullsLast cmp n m = 0) ∧
      (∀ a b : Value, a.IsNull = false → b.IsNull = false →
        CompareNullsFirst cmp a b = cmp a b ∧ CompareNullsLast cmp a b = cmp a b) ∧
      (∀ (cmp' : ValueFunc) (a b : Value), a.IsNull = true ∨ b.IsNull = true →
        CompareNullsFirst cmp a b = CompareNullsFirst cmp' a b ∧
        CompareNullsLast cmp a b = CompareNullsLast cmp' a b) := by
  refine ⟨?_, ?_, ?_, ?_⟩
  · intro n v hn hv
    simp [CompareNullsFirst, CompareNullsLast, hn, hv]
  · intro n m hn hm
    simp [CompareNullsFirst, CompareNullsLast, hn, hm]
  · intro a b ha hb
    simp [CompareNullsFirst, CompareNullsLast, ha, hb]
  · intro cmp' a b h
    rcases h with h | h
    · simp [CompareNullsFirst, CompareNullsLast, h]
    · cases ha : a.IsNull <;> simp [CompareNullsFirst, CompareNullsLast, h, ha]

/-- C10, an instance: a null against the integer -5. -/
theorem compareNulls_placement_witness :
    CompareNullsFirst int64Type.Compare (nullValue 0) (int64Value 0 (-5)) < 0 ∧
      CompareNullsFirst int64Type.Compare (int64Value 0 (-5)) (nullValue 0) > 0 ∧
      CompareNullsLast int64Type.Compare (nullValue 0) (int64Value 0 (-5)) > 0 ∧
      CompareNullsLast int64Type.Compare (int64Value 0 (-5)) (nullValue 0) < 0 :=
  (compareNulls_placement int64Type.Compare).1 (nullValue 0) (int64Value 0 (-5)) rfl rfl

/-- C11. Null placement does not depend on the sort direction: for a single sorting column
that names an optional leaf, and rows whose only value for the column of the leaf is null in
`r1` and non-null in `r2`, the synthesized comparator returns -1 when the entry is nulls-first
and +1 when it is nulls-last, whether the entry is descending or ascending. -/
theorem compareRowsFuncOf_null_placement (pre post : List leafColumn) (leaf : leafColumn)
    (path : List String) (nullsFirst : Bool) (r1 r2 : Row) (n v : Value)
    (hpath : leaf.path = path) (hpost : ∀ l ∈ post, l.path ≠ path)
    (hopt : leaf.maxDefinitionLevel > 0)
    (h1 : valuesOf leaf.columnIndex r1 = [n]) (hn : n.IsNull = true)
    (h2 : valuesOf leaf.columnIndex r2 = [v]) (hv : v.IsNull = false) :
    ∀ descending : Bool,
      compareRowsFuncOf (pre ++ leaf :: post)
        [{ Path := path, Descending := descending, NullsFirst := nullsFirst }] r1 r2 =
          .value (if nullsFirst then -1 else 1) := by
  intro descending
  rw [compareRowsFuncOf_single_of_last pre post leaf _ hpath hpost,
    sortFuncOf_of_general _ _ _ (Or.inr hopt), compareRowsFuncOfScan_eq_lexCompare, h1, h2]
  cases nullsFirst <;> cases descending <;>
    simp [lexCompare, valueFuncOf, hopt, CompareNullsFirst, CompareNullsLast, hn, hv]

/-- C11, an instance: the repeated, optional leaf `tag`, nulls first, descending. -/
theorem compareRowsFuncOf_null_placement_witness :
    compareRowsFuncOf ([int64Leaf ["id"] 0 0 0] ++ int64Leaf ["tag"] 1 1 1 :: [])
      [{ Path := ["tag"], Descending := true, NullsFirst := true }]
      [int64Value 0 4, nullValue 1] [int64Value 0 4, int64Value 1 7] = .value (-1) :=
  compareRowsFuncOf_null_placement [int64Leaf ["id"] 0 0 0] [] (int64Leaf ["tag"] 1 1 1)
    ["tag"] true [int64Value 0 4, nullValue 1] [int64Value 0 4, int64Value 1 7]
    (nullValue 1) (int64Value 1 7) rfl (by simp) (by decide) (by decide) rfl (by decide) rfl true

/-- C12. The synthesized comparator is antisymmetric: when the type comparators of the leaves
are antisymmetric with results in {-1, 0, +1}, a result `v` on `(r1, r2)` means the result `-v`
on `(r2, r1)`, and a result on `(r, r)` is 0. -/
theorem compareRowsFuncOf_antisymmetric (schema : Schema) (sortingColumns : List SortingColumn)
    (ht : ∀ leaf ∈ schema, ternaryCmp leaf.typ.Compare)
    (ha : ∀ leaf ∈ schema, antisymmetricCmp leaf.typ.Compare) :
    (∀ (r1 r2 : Row) (v : Int), compareRowsFuncOf schema sortingColumns r1 r2 = .value v →
        compareRowsFuncOf schema sortingColumns r2 r1 = .value (-v)) ∧
      (∀ (r : Row) (v : Int), compareRowsFuncOf schema sortingColumns r r = .value v →
        v = 0) := by
  have key : ∀ (r1 r2 : Row) (v : Int),
      compareRowsFuncOf schema sortingColumns r1 r2 = .value v →
      compareRowsFuncOf schema sortingColumns r2 r1 = .value (-v) := by
    intro r1 r2 v hv
    rw [compareRowsFuncOf_eq_firstNonZero] at hv ⊢
    refine firstNonZero_antisymmetric _ r1 r2 ?_ v hv
    intro f hf
    refine traverseSchema_forall schema sortingColumns
      (fun g => ∀ v, g r1 r2 = .value v → g r2 r1 = .value (-v)) ?_ f hf
    intro pre post leaf s hsplit _ w hw
    have hmem : leaf ∈ schema := by rw [hsplit]; simp
    exact sortFuncOf_antisymmetric _ leaf s (ht leaf hmem) (ha leaf hmem) r1 r2 w hw
  refine ⟨key, ?_⟩
  intro r v hv
  have := key r r v hv
  rw [hv] at this
  have hvv : v = -v := Outcome.value.inj this
  omega
/-- C12, an instance: sorted by `tag` descending then `id`, two rows compare as +1 one way
and -1 the other way. -/
theorem compareRowsFuncOf_antisymmetric_witness :
    compareRowsFuncOf idTagSchema [descending ["tag"], ascending ["id"]]
        [int64Value 0 1, int64Value 1 3] [int64Value 0 2, int64Value 1 4] = .value 1 ∧
      compareRowsFuncOf idTagSchema [descending ["tag"], ascending ["id"]]
        [int64Value 0 2, int64Value 1 4] [int64Value 0 1, int64Value 1 3] = .value (-1) :=
  ⟨by decide,
    (compareRowsFuncOf_antisymmetric idTagSchema [descending ["tag"], ascending ["id"]]
      (fun leaf h => by rw [idTagSchema_typ leaf h]; exact int64Type_orderCmp.1)
      (fun leaf h => by rw [idTagSchema_typ leaf h]; exact int64Type_orderCmp.2.1)).1
      [int64Value 0 1, int64Value 1 3] [int64Value 0 2, int64Value 1 4] 1 (by decide)⟩

/-- C13. The scanning comparator is transitive. The combinators `CompareDescending`,
`CompareNullsFirst` and `CompareNullsLast` keep a value comparator antisymmetric, transitive
and valued in {-1, 0, +1}; for such a value comparator, results at most 0 of the scanning
comparator on `(r1, r2)` and on `(r2, r3)` give a result at most 0 on `(r1, r3)`; and the same
holds for the composition of such scanning comparators by `compareRowsFuncOfColumns`. -/
theorem compareRowsFuncOfScan_transitive :
    (∀ cmp : ValueFunc, orderCmp cmp →
        orderCmp (CompareDescending cmp) ∧ orderCmp (CompareNullsFirst cmp) ∧
          orderCmp (CompareNullsLast cmp)) ∧
      (∀ (c : Int) (cmp : ValueFunc) (r1 r2 r3 : Row) (a b : Int), orderCmp cmp →
        compareRowsFuncOfScan c cmp r1 r2 = .value a → a ≤ 0 →
        compareRowsFuncOfScan c cmp r2 r3 = .value b → b ≤ 0 →
        ∃ d, compareRowsFuncOfScan c cmp r1 r3 = .value d ∧ d ≤ 0) ∧
      (∀ (keys : List (Int × ValueFunc)) (r1 r2 r3 : Row) (a b : Int),
        (∀ k ∈ keys, orderCmp k.2) →
        compareRowsFuncOfColumns
          (keys.map (fun k => some (compareRowsFuncOfScan k.1 k.2))) r1 r2 = .value a →
        a ≤ 0 →
        compareRowsFuncOfColumns
          (keys.map (fun k => some (compareRowsFuncOfScan k.1 k.2))) r2 r3 = .value b →
        b ≤ 0 →
        ∃ d, compareRowsFuncOfColumns
          (keys.map (fun k => some (compareRowsFuncOfScan k.1 k.2))) r1 r3 = .value d ∧
          d ≤ 0) := by
  refine ⟨?_, ?_, ?_⟩
  · intro cmp h
    exact ⟨CompareDescending_orderCmp cmp h, CompareNullsFirst_orderCmp cmp h,
      CompareNullsLast_orderCmp cmp h⟩
  · intro c cmp r1 r2 r3 a b h h12 ha h23 hb
    rw [compareRowsFuncOfScan_eq_lexCompare] at h12 h23 ⊢
    cases h12
    cases h23
    exact ⟨_, rfl, lexCompare_transitive cmp h.2.1 h.2.2 _ _ _ ha hb⟩
  · intro keys r1 r2 r3 a b h h12 ha h23 hb
    have e : ∀ r r' : Row, compareRowsFuncOfColumns
        (keys.map (fun k => some (compareRowsFuncOfScan k.1 k.2))) r r' =
        firstNonZero (keys.map (fun k => compareRowsFuncOfScan k.1 k.2 r r')) := by
      intro r r'
      have := columnsLoop_eq_firstNonZero r r'
        (keys.map (fun k => compareRowsFuncOfScan k.1 k.2))
      simp only [List.map_map] at this
      exact this
    rw [e] at h12 h23 ⊢
    exact firstNonZero_scan_transitive keys h r1 r2 r3 a b h12 ha h23 hb

/-- C13, an instance: three rows in order under a descending, nulls-first comparator on
column 1. -/
theorem compareRowsFuncOfScan_transitive_witness :
    ∃ d, compareRowsFuncOfScan 1 (CompareNullsFirst (CompareDescending int64Type.Compare))
        [int64Value 1 9] [int64Value 0 0, int64Value 1 4] = .value d ∧ d ≤ 0 :=
  compareRowsFuncOfScan_transitive.2.1 1
    (CompareNullsFirst (CompareDescending int64Type.Compare))
    [int64Value 1 9] [int64Value 1 9, int64Value 1 2] [int64Value 0 0, int64Value 1 4] (-1) (-1)
    ((compareRowsFuncOfScan_transitive.1 _
      (compareRowsFuncOfScan_transitive.1 _ int64Type_orderCmp).1).2.1)
    (by decide) (by decide) (by decide) (by decide)

/-- C14. Each integer-like primitive comparator is a total order that follows the natural
order of its values: `compareBool` (with false below true), `compareInt32`, `compareInt64`,
`compareUint32`, `compareUint64`, and `compareBE128` on 16-byte blocks return -1, 0 or +1, are
negated by swapping the arguments, return 0 exactly on equal values, and are transitive. -/
theorem primitive_comparators_total_order :
    (totalOrderOn (fun _ => True) compareBool ∧ compareBool false true = -1) ∧
      (totalOrderOn (fun _ => True) compareInt32 ∧ ∀ a b, compareInt32 a b = -1 ↔ a < b) ∧
      (totalOrderOn (fun _ => True) compareInt64 ∧ ∀ a b, compareInt64 a b = -1 ↔ a < b) ∧
      (totalOrderOn (fun _ => True) compareUint32 ∧ ∀ a b, compareUint32 a b = -1 ↔ a < b) ∧
      (totalOrderOn (fun _ => True) compareUint64 ∧ ∀ a b, compareUint64 a b = -1 ↔ a < b) ∧
      totalOrderOn isBlock128 compareBE128 := by
  refine ⟨⟨compareBool_totalOrder, by decide⟩,
    ⟨compareInt_totalOrder _ (fun _ _ => rfl), ?_⟩,
    ⟨compareInt_totalOrder _ (fun _ _ => rfl), ?_⟩,
    ⟨compareNat_totalOrder _ (fun _ _ => rfl), ?_⟩,
    ⟨compareNat_totalOrder _ (fun _ _ => rfl), ?_⟩,
    compareBE128_totalOrder⟩
  · intro a b
    unfold compareInt32
    split_ifs <;> simp <;> omega
  · intro a b
    unfold compareInt64
    split_ifs <;> simp <;> omega
  · intro a b
    unfold compareUint32
    split_ifs <;> simp <;> omega
  · intro a b
    unfold compareUint64
    split_ifs <;> simp <;> omega

/-- C14, an instance: two blocks that differ in the last byte only are not equal and do not
compare as 0. -/
theorem primitive_comparators_total_order_witness :
    compareBE128 [0, 0, 0, 0, 0, 0, 0, 1, 0, 0, 0, 0, 0, 0, 0, 2]
        [0, 0, 0, 0, 0, 0, 0, 1, 0, 0, 0, 0, 0, 0, 0, 3] ≠ 0 :=
  fun h => absurd
    ((primitive_comparators_total_order.2.2.2.2.2.2.2.1
      [0, 0, 0, 0, 0, 0, 0, 1, 0, 0, 0, 0, 0, 0, 0, 2]
      [0, 0, 0, 0, 0, 0, 0, 1, 0, 0, 0, 0, 0, 0, 0, 3] (by decide) (by decide)).mp h)
    (by decide)

/-- C15. The order of 128-bit blocks is the big-endian unsigned order: for 16-byte blocks,
`compareBE128` is -1, 0 or +1 according to whether the number encoded big-endian by the first
block is less than, equal to or greater than the number encoded by the second, and it is the
byte-wise lexicographic comparison of the two blocks. -/
theorem compareBE128_bigEndian (v1 v2 : List Nat) (h1 : isBlock128 v1) (h2 : isBlock128 v2) :
    (compareBE128 v1 v2 = -1 ↔ bigEndianNat v1 < bigEndianNat v2) ∧
      (compareBE128 v1 v2 = 0 ↔ bigEndianNat v1 = bigEndianNat v2) ∧
      (compareBE128 v1 v2 = 1 ↔ bigEndianNat v1 > bigEndianNat v2) ∧
      compareBE128 v1 v2 = lexBytes v1 v2 := by
  rw [lexBytes_eq_compare v1 v2 (h1.1.trans h2.1.symm) h1.2 h2.2,
    compareBE128_eq_compare v1 v2 h1 h2]
  refine ⟨?_, ?_, ?_, rfl⟩ <;> split_ifs <;> simp <;> omega

/-- C15, instances: equal high halves with differing low halves, and differing high halves
with low halves in the opposite order. -/
theorem compareBE128_bigEndian_witness :
    (compareBE128 [0, 0, 0, 0, 0, 0, 0, 7, 0, 0, 0, 0, 0, 0, 1, 0]
        [0, 0, 0, 0, 0, 0, 0, 7, 0, 0, 0, 0, 0, 0, 0, 255] = 1 ↔
      bigEndianNat [0, 0, 0, 0, 0, 0, 0, 7, 0, 0, 0, 0, 0, 0, 1, 0] >
        bigEndianNat [0, 0, 0, 0, 0, 0, 0, 7, 0, 0, 0, 0, 0, 0, 0, 255]) ∧
    (compareBE128 [0, 0, 0, 0, 0, 0, 0, 1, 255, 255, 255, 255, 255, 255, 255, 255]
        [0, 0, 0, 0, 0, 0, 0, 2, 0, 0, 0, 0, 0, 0, 0, 0] = -1 ↔
      bigEndianNat [0, 0, 0, 0, 0, 0, 0, 1, 255, 255, 255, 255, 255, 255, 255, 255] <
        bigEndianNat [0, 0, 0, 0, 0, 0, 0, 2, 0, 0, 0, 0, 0, 0, 0, 0]) :=
  ⟨(compareBE128_bigEndian [0, 0, 0, 0, 0, 0, 0, 7, 0, 0, 0, 0, 0, 0, 1, 0]
      [0, 0, 0, 0, 0, 0, 0, 7, 0, 0, 0, 0, 0, 0, 0, 255] (by decide) (by decide)).2.2.1,
    (compareBE128_bigEndian [0, 0, 0, 0, 0, 0, 0, 1, 255, 255, 255, 255, 255, 255, 255, 255]
      [0, 0, 0, 0, 0, 0, 0, 2, 0, 0, 0, 0, 0, 0, 0, 0] (by decide) (by decide)).1⟩

/-- C16. Descending is an exact inversion. `CompareDescending cmp` returns the Go negation of
`cmp a b` for every function `cmp`, and the descending positional comparator returns the Go
negation of what the ascending one returns whenever the column index is in range. For every
comparator, that is for every antisymmetric `cmp` with Go `int` results, and in particular for
every `cmp` with results in {-1, 0, +1}, the Go negation is the opposite: `CompareDescending
cmp a b = -cmp a b`, and the descending positional comparator returns `-v` where the ascending
one returns `v`. -/
theorem descending_inversion :
    (∀ (cmp : ValueFunc) (a b : Value), CompareDescending cmp a b = negInt (cmp a b)) ∧
      (∀ cmp : ValueFunc, goIntCmp cmp → antisymmetricCmp cmp →
        ∀ a b : Value, CompareDescending cmp a b = -cmp a b) ∧
      (∀ cmp : ValueFunc, ternaryCmp cmp →
        ∀ a b : Value, CompareDescending cmp a b = -cmp a b) ∧
      (∀ (c : Int) (typ : Typ) (r1 r2 : Row) (v : Int),
        compareRowsFuncOfIndexAscending c typ r1 r2 = .value v →
        compareRowsFuncOfIndexDescending c typ r1 r2 = .value (negInt v)) ∧
      (∀ (c : Int) (typ : Typ) (r1 r2 : Row) (v : Int),
        goIntCmp typ.Compare → antisymmetricCmp typ.Compare →
        compareRowsFuncOfIndexAscending c typ r1 r2 = .value v →
        compareRowsFuncOfIndexDescending c typ r1 r2 = .value (-v)) ∧
      (∀ (c : Int) (typ : Typ) (r1 r2 : Row) (v : Int), ternaryCmp typ.Compare →
        compareRowsFuncOfIndexAscending c typ r1 r2 = .value v →
        compareRowsFuncOfIndexDescending c typ r1 r2 = .value (-v)) := by
  have hidx : ∀ (c : Int) (typ : Typ) (r1 r2 : Row) (v : Int),
      compareRowsFuncOfIndexAscending c typ r1 r2 = .value v →
      ∃ x y, v = typ.Compare x y ∧
        compareRowsFuncOfIndexDescending c typ r1 r2 = .value (negInt (typ.Compare x y)) := by
    intro c typ r1 r2 v hv
    obtain ⟨x, y, e1, e2, rfl⟩ := compareRowsFuncOfIndexAscending_value c typ r1 r2 v hv
    refine ⟨x, y, rfl, ?_⟩
    unfold compareRowsFuncOfIndexDescending
    rw [e1, e2]
  refine ⟨fun _ _ _ => rfl, ?_, ?_, ?_, ?_, ?_⟩
  · intro cmp hr ha a b
    exact negInt_of_antisymmetric cmp hr ha a b
  · intro cmp ht a b
    exact negInt_of_ternary _ (ht a b)
  · intro c typ r1 r2 v hv
    obtain ⟨x, y, rfl, h⟩ := hidx c typ r1 r2 v hv
    exact h
  · intro c typ r1 r2 v hr ha hv
    obtain ⟨x, y, rfl, h⟩ := hidx c typ r1 r2 v hv
    rw [h, negInt_of_antisymmetric typ.Compare hr ha x y]
  · intro c typ r1 r2 v ht hv
    obtain ⟨x, y, rfl, h⟩ := hidx c typ r1 r2 v hv
    rw [h, negInt_of_ternary _ (ht x y)]

/-- C16, an instance on the example type, whose comparator is antisymmetric with results in
{-1, 0, +1}: 3 against 8 is -1 ascending and +1 descending. -/
theorem descending_inversion_witness :
    CompareDescending int64Type.Compare (int64Value 0 3) (int64Value 0 8) =
        -int64Type.Compare (int64Value 0 3) (int64Value 0 8) ∧
      compareRowsFuncOfIndexDescending 0 int64Type [int64Value 0 3] [int64Value 0 8] =
        .value (- -1) :=
  ⟨descending_inversion.2.1 int64Type.Compare
      (fun a b => by have := int64Type_orderCmp.1 a b; omega) int64Type_orderCmp.2.1
      (int64Value 0 3) (int64Value 0 8),
    descending_inversion.2.2.2.2.2 0 int64Type [int64Value 0 3] [int64Value 0 8] (-1)
      int64Type_orderCmp.1 (by decide)⟩

/-- C17. The end-to-end example of the spec. In the schema `id` (int64, column 0, required)
followed by `tag` (string, column 1, optional, repeated): sorted by `id` ascending,
`[(col 0, 5)]` against `[(col 0, 3)]` gives +1; sorted by `tag` ascending, nulls first,
`[(col 1, "a"), (col 1, "b")]` against `[(col 1, "a")]` gives +1. The type comparators are
parameters: the one of `id` compares 5 with 3 as `compareInt64` does, the one of `tag` finds
"a" equal to "a". -/
theorem end_to_end_example (idType tagType : Typ)
    (hid : idType.Compare (int64Value 0 5) (int64Value 0 3) = compareInt64 5 3)
    (htag : tagType.Compare (byteArrayValue 1 [97]) (byteArrayValue 1 [97]) = 0) :
    (∀ nullsFirst : Bool,
        compareRowsFuncOf (exampleSchema idType tagType)
          [{ Path := ["id"], Descending := false, NullsFirst := nullsFirst }]
          [int64Value 0 5] [int64Value 0 3] = .value 1) ∧
      compareRowsFuncOf (exampleSchema idType tagType)
        [{ Path := ["tag"], Descending := false, NullsFirst := true }]
        [byteArrayValue 1 [97], byteArrayValue 1 [98]] [byteArrayValue 1 [97]] = .value 1 := by
  constructor
  · intro nullsFirst
    have := compareRowsFuncOf_single_of_last [] [exampleTagLeaf tagType] (exampleIdLeaf idType)
      { Path := ["id"], Descending := false, NullsFirst := nullsFirst } rfl
      (by simp [exampleTagLeaf]) [int64Value 0 5] [int64Value 0 3]
    simp only [List.nil_append] at this
    unfold exampleSchema
    rw [this]
    have hdir : noneRepeated [exampleIdLeaf idType] = true := rfl
    rw [hdir, sortFuncOf_of_direct _ _ rfl]
    simp only [Bool.false_eq_true, if_false]
    show Outcome.value (idType.Compare (int64Value 0 5) (int64Value 0 3)) = _
    rw [hid]
    rfl
  · have := compareRowsFuncOf_single_of_last [exampleIdLeaf idType] []
      (exampleTagLeaf tagType)
      { Path := ["tag"], Descending := false, NullsFirst := true } rfl (by simp)
      [byteArrayValue 1 [97], byteArrayValue 1 [98]] [byteArrayValue 1 [97]]
    simp only [List.singleton_append] at this
    unfold exampleSchema
    rw [this, sortFuncOf_of_general _ _ _ (Or.inr (Nat.zero_lt_one)),
      compareRowsFuncOfScan_eq_lexCompare]
    have e1 : valuesOf 1 [byteArrayValue 1 [97], byteArrayValue 1 [98]] =
        [byteArrayValue 1 [97], byteArrayValue 1 [98]] := by decide
    have e2 : valuesOf 1 [byteArrayValue 1 [97]] = [byteArrayValue 1 [97]] := by decide
    show Outcome.value (lexCompare _ (valuesOf 1 _) (valuesOf 1 _)) = _
    rw [e1, e2]
    have hvf : valueFuncOf (exampleTagLeaf tagType)
        { Path := ["tag"], Descending := false, NullsFirst := true }
        (byteArrayValue 1 [97]) (byteArrayValue 1 [97]) = 0 := by
      show CompareNullsFirst tagType.Compare (byteArrayValue 1 [97]) (byteArrayValue 1 [97]) = 0
      unfold CompareNullsFirst
      exact htag
    simp only [lexCompare, hvf, ne_eq, not_true_eq_false, if_false]

/-- C17, an instance: 64-bit integers compared by `compareInt64` and byte strings compared
byte-wise. -/
theorem end_to_end_example_witness :
    compareRowsFuncOf (exampleSchema int64Type byteArrayType)
        [{ Path := ["id"], Descending := false, NullsFirst := false }]
        [int64Value 0 5] [int64Value 0 3] = .value 1 ∧
      compareRowsFuncOf (exampleSchema int64Type byteArrayType)
        [{ Path := ["tag"], Descending := false, NullsFirst := true }]
        [byteArrayValue 1 [97], byteArrayValue 1 [98]] [byteArrayValue 1 [97]] = .value 1 :=
  ⟨(end_to_end_example int64Type byteArrayType rfl (by decide)).1 false,
    (end_to_end_example int64Type byteArrayType rfl (by decide)).2⟩

/-- C18. The scanning comparator terminates without indexing out of range: for every column
index, value comparator and pair of rows, and whatever the budget, the loop starts at most
`min(len r1, len r2) + 1` outer iterations and reads `row1` and `row2` only at positions below
their lengths; with a budget of `min(len r1, len r2) + 1` iterations or more it returns a
result, the one `compareRowsFuncOfScan` returns. -/
theorem compareRowsFuncOfScan_terminates (c : Int) (cmp : ValueFunc) (r1 r2 : Row) (fuel : Nat) :
    (compareRowsFuncOfScan.logLoop cmp (complement c) r1 r2 fuel 0 0).iterations ≤
        min r1.length r2.length + 1 ∧
      (∀ j ∈ (compareRowsFuncOfScan.logLoop cmp (complement c) r1 r2 fuel 0 0).reads1,
        j < r1.length) ∧
      (∀ j ∈ (compareRowsFuncOfScan.logLoop cmp (complement c) r1 r2 fuel 0 0).reads2,
        j < r2.length) ∧
      (min r1.length r2.length + 1 ≤ fuel →
        (compareRowsFuncOfScan.logLoop cmp (complement c) r1 r2 fuel 0 0).outcome =
            compareRowsFuncOfScan c cmp r1 r2 ∧
          ∃ v, compareRowsFuncOfScan c cmp r1 r2 = .value v) := by
  obtain ⟨h1, h2, h3⟩ := logLoop_bounds cmp (complement c) r1 r2 fuel 0 0
    (Nat.zero_le _) (Nat.zero_le _)
  refine ⟨by simpa using h1, h2, h3, ?_⟩
  intro hfuel
  rw [logLoop_outcome, compareRowsFuncOfScan_eq_lexCompare,
    scanLoop_spec cmp (complement c) r1 r2 fuel 0 0 (Nat.zero_le _) (Nat.zero_le _)
      (by simpa using hfuel)]
  exact ⟨rfl, _, rfl⟩

/-- C18, an instance: rows of 3 and 2 values; the loop runs twice. -/
theorem compareRowsFuncOfScan_terminates_witness :
    (compareRowsFuncOfScan.logLoop int64Type.Compare (complement 1)
        [int64Value 0 1, int64Value 1 5, int64Value 1 6] [int64Value 1 5, int64Value 2 3]
        100 0 0).outcome =
      compareRowsFuncOfScan 1 int64Type.Compare
        [int64Value 0 1, int64Value 1 5, int64Value 1 6] [int64Value 1 5, int64Value 2 3] ∧
    (compareRowsFuncOfScan.logLoop int64Type.Compare (complement 1)
        [int64Value 0 1, int64Value 1 5, int64Value 1 6] [int64Value 1 5, int64Value 2 3]
        100 0 0).iterations = 2 :=
  ⟨((compareRowsFuncOfScan_terminates 1 int64Type.Compare
      [int64Value 0 1, int64Value 1 5, int64Value 1 6] [int64Value 1 5, int64Value 2 3]
      100).2.2.2 (by decide)).1,
    by decide⟩

/-- C19. Results lie in {-1, 0, +1}: the three combinators keep that range; the scanning
comparator over such a value comparator, the composition of such row comparators, and the
comparator synthesized from a schema whose type comparators have that range return -1, 0 or
+1 whenever they return a result. -/
theorem results_ternary :
    (∀ cmp : ValueFunc, ternaryCmp cmp →
        ternaryCmp (CompareDescending cmp) ∧ ternaryCmp (CompareNullsFirst cmp) ∧
          ternaryCmp (CompareNullsLast cmp)) ∧
      (∀ (c : Int) (cmp : ValueFunc) (r1 r2 : Row) (v : Int), ternaryCmp cmp →
        compareRowsFuncOfScan c cmp r1 r2 = .value v → v = -1 ∨ v = 0 ∨ v = 1) ∧
      (∀ (fs : List RowFunc) (r1 r2 : Row) (v : Int),
        (∀ f ∈ fs, ∀ w, f r1 r2 = .value w → w = -1 ∨ w = 0 ∨ w = 1) →
        compareRowsFuncOfColumns (fs.map some) r1 r2 = .value v → v = -1 ∨ v = 0 ∨ v = 1) ∧
      (∀ (schema : Schema) (sortingColumns : List SortingColumn) (r1 r2 : Row) (v : Int),
        (∀ leaf ∈ schema, ternaryCmp leaf.typ.Compare) →
        compareRowsFuncOf schema sortingColumns r1 r2 = .value v →
        v = -1 ∨ v = 0 ∨ v = 1) := by
  refine ⟨?_, ?_, ?_, ?_⟩
  · intro cmp h
    exact ⟨CompareDescending_ternary cmp h, CompareNullsFirst_ternary cmp h,
      CompareNullsLast_ternary cmp h⟩
  · intro c cmp r1 r2 v h hv
    rw [compareRowsFuncOfScan_eq_lexCompare] at hv
    cases hv
    exact lexCompare_ternary cmp h _ _
  · intro fs r1 r2 v h hv
    unfold compareRowsFuncOfColumns at hv
    rw [columnsLoop_eq_firstNonZero] at hv
    exact firstNonZero_ternary fs r1 r2 h v hv
  · intro schema sortingColumns r1 r2 v h hv
    rw [compareRowsFuncOf_eq_firstNonZero] at hv
    refine firstNonZero_ternary _ r1 r2 ?_ v hv
    intro f hf
    refine traverseSchema_forall schema sortingColumns
      (fun g => ∀ w, g r1 r2 = .value w → w = -1 ∨ w = 0 ∨ w = 1) ?_ f hf
    intro pre post leaf s hsplit _ w hw
    have hmem : leaf ∈ schema := by rw [hsplit]; simp
    exact sortFuncOf_ternary _ leaf s (h leaf hmem) r1 r2 w hw

/-- C19, an instance: a descending, nulls-last comparator over the example type. -/
theorem results_ternary_witness :
    ternaryCmp (CompareNullsLast (CompareDescending int64Type.Compare)) :=
  (results_ternary.1 (CompareDescending int64Type.Compare)
    ((results_ternary.1 int64Type.Compare int64Type_orderCmp.1).1)).2.2

/-- C20. `lessBE128` is the strict-less projection of `compareBE128`: on every pair of blocks
it is true exactly when `compareBE128` returns -1. -/
theorem lessBE128_iff_compareBE128 (v1 v2 : List Nat) :
    lessBE128 v1 v2 = true ↔ compareBE128 v1 v2 = -1 := by
  unfold lessBE128 compareBE128
  simp only []
  generalize bigEndianUint64 (v1.take 8) = H1
  generalize bigEndianUint64 (v2.take 8) = H2
  generalize bigEndianUint64 (v1.drop 8) = L1
  generalize bigEndianUint64 (v2.drop 8) = L2
  split_ifs <;> simp <;> omega

end Parquet
